import Mathlib

/-!
Verification of the convergence scheduling and dependency-execution engine
of the heat orchestration repository.

Part A embeds the code of heat/engine/stack.py and heat/engine/worker.py
(the stack state machine, the compare-and-swap store, convergence kickoff,
completion/purge, and the worker's stale-traversal check).

Parts B, C and D model the components whose source module is not part of
the source tree here (heat/engine/dependencies.py and
heat/engine/scheduler.py: only their tests are available), following the
specification's description of the dependency graph, the task runner and
the dependency task group.
-/

namespace Heat

/-! ## Part A: stack.py and worker.py -/

/-- Stack.ACTIONS from stack.py (CREATE, DELETE, UPDATE, ROLLBACK, SUSPEND,
RESUME, ADOPT, SNAPSHOT, CHECK, RESTORE). Actions are strings in the
source. -/
def ACTIONS : List String :=
  ["CREATE", "DELETE", "UPDATE", "ROLLBACK", "SUSPEND",
   "RESUME", "ADOPT", "SNAPSHOT", "CHECK", "RESTORE"]

/-- Stack.STATUSES from stack.py (IN_PROGRESS, FAILED, COMPLETE). -/
def STATUSES : List String := ["IN_PROGRESS", "FAILED", "COMPLETE"]

/-- The database row backing a stack: the columns that stack.py writes on
the convergence path (select_and_update values plus the fields of
get_kwargs_for_cloning(only_db=True) that matter to the claims). -/
structure DbStack where
  current_traversal : String
  action : String
  status : String
  status_reason : String
  prev_raw_template_id : Option Nat
  raw_template_id : Nat
  deriving DecidableEq, Repr

/-- The in-memory Stack object: the fields of stack.py's Stack that the
embedded methods read or write. `tmpl_id` is self.t.id (the stored raw
template id; the claims only exercise stacks whose template is stored).
`graph_nodes` is the key set of self.convergence_dependencies.graph(),
used by the worker's _retrigger_replaced. An empty string in
`current_traversal` is the cleared traversal (as in _persist_state). -/
structure Stack where
  id : Nat
  name : String
  convergence : Bool
  action : String
  status : String
  status_reason : String
  current_traversal : String
  prev_raw_template_id : Option Nat
  tmpl_id : Nat
  graph_nodes : List (Nat × Bool)
  deriving DecidableEq, Repr

/-- stack_object.Stack.select_and_update: the storage interface's atomic
compare-and-swap (spec section 6: update the aggregate keyed by the
expected prior traversal). Updates the row with `f` and reports success
iff the stored current_traversal equals the expected value; when `exp` is
none no traversal check is made. An absent row always fails. -/
def select_and_update (db : Option DbStack) (exp : Option String)
    (f : DbStack → DbStack) : Option DbStack × Bool :=
  match db with
  | none => (none, false)
  | some row =>
    match exp with
    | none => (some (f row), true)
    | some e =>
      if row.current_traversal = e then (some (f row), true) else (some row, false)

/-- Stack.store (stack.py), restricted to the convergence path with self.id
already set (the only path the claims exercise; the INSERT branch for a
never-stored stack is not modelled). Writes the cloning kwargs (including
current_traversal, prev_raw_template_id, action/status/reason since
keep_status=True) and the template id, via select_and_update keyed on
`exp_trvsl`; when exp_trvsl is none and ignore is false, the stack's own
current_traversal is used as the expected value. Returns the updated row
and `some id` on success, `none` on a lost compare-and-swap race. -/
def Stack.store (st : Stack) (db : Option DbStack) (exp_trvsl : Option String)
    (ignore : Bool) : Option DbStack × Option Nat :=
  let exp := match exp_trvsl with
    | some e => some e
    | none => if ignore then none else some st.current_traversal
  let (db', ok) := select_and_update db exp fun row =>
    { row with
      current_traversal := st.current_traversal
      action := st.action
      status := st.status
      status_reason := st.status_reason
      prev_raw_template_id := st.prev_raw_template_id
      raw_template_id := st.tmpl_id }
  if ok then (db', some st.id) else (db', none)

/-- The externally visible side effects that the embedded stack.py and
worker.py methods perform, in order of occurrence. -/
inductive Effect where
  | notify
  | purgeDeleted (stackId : Nat)
  | syncPointDeleteAll (stackId : Nat) (traversal : String)
  | syncPointCreate (entityId : Nat) (traversal : String) (isUpdate : Bool)
  | checkResourceCall (rsrcId : Nat) (traversal : String) (isUpdate : Bool)
  | rawTemplateDelete (tmplId : Nat)
  | credentialsDelete
  | stackDelete (stackId : Nat)
  deriving DecidableEq, Repr

/-- Stack._persist_state (stack.py): reads the row, sends the notification,
and on the convergence path does a select_and_update of action, status and
status_reason keyed on the stack's current traversal; when the status is
FAILED the current traversal is cleared (set to the empty string) both in
memory and in the written row. Returns the possibly-updated stack, the
database, the select_and_update result (none on the non-convergence path
or when no row exists) and the emitted effects. -/
def Stack.persist_state (st : Stack) (db : Option DbStack) :
    Stack × Option DbStack × Option Bool × List Effect :=
  match db with
  | none => (st, db, none, [])
  | some _ =>
    if st.convergence then
      let exp := st.current_traversal
      let clear := st.status = "FAILED"
      let st' := if clear then { st with current_traversal := "" } else st
      let (db', ok) := select_and_update db (some exp) fun row =>
        let row' := { row with
          action := st'.action
          status := st'.status
          status_reason := st'.status_reason }
        if clear then { row' with current_traversal := "" } else row'
      (st', db', some ok, [Effect.notify])
    else
      let (db', _) := select_and_update db none fun row =>
        { row with
          action := st.action
          status := st.status
          status_reason := st.status_reason }
      (st, db', none, [Effect.notify])

/-- Stack.state_set (stack.py): validates the action against ACTIONS and
the status against STATUSES, raising ValueError (modelled as Except.error,
returning before any in-memory mutation or database write) on an invalid
value; otherwise updates the in-memory state and persists it on the
convergence path for the five stack operations (returning the
select_and_update outcome), or persists for IN_PROGRESS /
UPDATE/DELETE/ROLLBACK on the legacy path. -/
def Stack.state_set (st : Stack) (db : Option DbStack)
    (action status reason : String) :
    Except String (Stack × Option DbStack × Option Bool × List Effect) :=
  if action ∉ ACTIONS then
    .error ("Invalid action " ++ action)
  else if status ∉ STATUSES then
    .error ("Invalid status " ++ status)
  else
    let st := { st with action := action, status := status, status_reason := reason }
    if st.convergence ∧
        action ∈ ["UPDATE", "DELETE", "CREATE", "ADOPT", "ROLLBACK"] then
      .ok (st.persist_state db)
    else
      if status = "IN_PROGRESS" ∨ action ∈ ["UPDATE", "DELETE", "ROLLBACK"] then
        let (st', db', _, effs) := st.persist_state db
        .ok (st', db', none, effs)
      else
        .ok (st, db, none, [])

/-- Stack.purge_db (stack.py): purge deleted resources, detach the previous
raw template when the stack did not fail, re-store the stack (aborting the
purge when the compare-and-swap store loses a race), delete the previous
raw template, delete all sync points of the current traversal, and on
(DELETE, COMPLETE) delete the credentials and the stack row itself. -/
def Stack.purge_db (st : Stack) (db : Option DbStack) :
    Stack × Option DbStack × List Effect :=
  let effs := [Effect.purgeDeleted st.id]
  let (prevTmpl, st) :=
    if st.prev_raw_template_id.isSome ∧ st.status ≠ "FAILED" then
      (st.prev_raw_template_id, { st with prev_raw_template_id := none })
    else
      (none, st)
  let (db, sid) := st.store db none false
  match sid with
  | none => (st, db, effs)
  | some _ =>
    let effs := effs ++ (match prevTmpl with
      | some t => [Effect.rawTemplateDelete t]
      | none => [])
    let effs := effs ++ [Effect.syncPointDeleteAll st.id st.current_traversal]
    if st.action = "DELETE" ∧ st.status = "COMPLETE" then
      (st, none, effs ++ [Effect.credentialsDelete, Effect.stackDelete st.id])
    else
      (st, db, effs)

/-- Stack.mark_complete (stack.py): set the stack's own action to COMPLETE
via state_set; when that persisted update did not succeed, return without
purging; otherwise run purge_db. -/
def Stack.mark_complete (st : Stack) (db : Option DbStack) :
    Except String (Stack × Option DbStack × List Effect) :=
  let reason := "Stack " ++ st.action ++ " completed successfully"
  match st.state_set db st.action "COMPLETE" reason with
  | .error m => .error m
  | .ok (st', db', updated, effs) =>
    if updated ≠ some true then
      .ok (st', db', effs)
    else
      let (st'', db'', effs') := st'.purge_db db'
      .ok (st'', db'', effs ++ effs')

/-- Stack.converge_stack together with _converge_create_or_update
(stack.py). `freshTraversal` stands for the uuid generated at the start of
the operation, and `convgDeps` for the convergence dependencies computed
by _compute_convg_dependencies (each node with its requirement list;
leaves are the nodes with no requirements). Sets the previous raw template
(except for CREATE/ADOPT), switches the template, moves to
(action, IN_PROGRESS), generates the fresh traversal and stores it with a
compare-and-swap keyed on the previous traversal: on a lost race it logs
and returns with no further work. On success it deletes the previous
traversal's sync points, stores the dependency edges (again aborting
quietly on a lost race), creates one sync point per node plus one for the
stack, and either marks the stack complete (no leaves) or dispatches every
leaf to the worker. -/
def Stack.converge_stack (st : Stack) (db : Option DbStack) (tmplId : Nat)
    (action : String) (freshTraversal : String)
    (convgDeps : List ((Nat × Bool) × List (Nat × Bool))) :
    Except String (Stack × Option DbStack × List Effect) :=
  let st := if action ∉ ["CREATE", "ADOPT"] then
      { st with prev_raw_template_id := some st.tmpl_id }
    else st
  let st := { st with
    tmpl_id := tmplId
    action := action
    status := "IN_PROGRESS"
    status_reason := "Stack " ++ action ++ " started" }
  let previous := st.current_traversal
  let st := { st with current_traversal := freshTraversal }
  let (db, sid) := st.store db (some previous) false
  match sid with
  | none => .ok (st, db, [])
  | some _ =>
    let effs := [Effect.notify]
    let effs := effs ++ (if previous ≠ "" then
        [Effect.syncPointDeleteAll st.id previous]
      else [])
    let st := { st with graph_nodes := convgDeps.map Prod.fst }
    let (db, sid2) := st.store db none false
    match sid2 with
    | none => .ok (st, db, effs)
    | some _ =>
      let effs := effs ++ convgDeps.map (fun n =>
        Effect.syncPointCreate n.1.1 st.current_traversal n.1.2)
      let effs := effs ++ [Effect.syncPointCreate st.id st.current_traversal true]
      let leaves := convgDeps.filter (fun n => n.2 = [])
      if leaves = [] then
        match st.mark_complete db with
        | .error m => .error m
        | .ok (st', db', effs') => .ok (st', db', effs ++ effs')
      else
        .ok (st, db, effs ++ leaves.map (fun n =>
          Effect.checkResourceCall n.1.1 st.current_traversal n.1.2))

/-- An active resource database row as read by
Stack._get_best_existing_rsrc_db and the worker (id, name, the template
generation it belongs to, and the id of the resource it replaces). -/
structure ExtRsrc where
  id : Nat
  name : String
  current_template_id : Nat
  replaces : Option Nat
  deriving DecidableEq, Repr

/-- The loop body of Stack._get_best_existing_rsrc_db (stack.py): walk the
active resource rows in order; skip rows with a different name; break
immediately on a row matching the current template id; otherwise a row
matching the previous raw template id overwrites the candidate; otherwise
the row becomes the candidate only when none is held yet. -/
def bestExistingLoop (tmplId : Nat) (prevId : Option Nat) (rsrcName : String) :
    List ExtRsrc → Option ExtRsrc → Option ExtRsrc
  | [], candidate => candidate
  | r :: rest, candidate =>
    if r.name ≠ rsrcName then
      bestExistingLoop tmplId prevId rsrcName rest candidate
    else if r.current_template_id = tmplId then
      some r
    else if some r.current_template_id = prevId then
      bestExistingLoop tmplId prevId rsrcName rest (some r)
    else if candidate = none then
      bestExistingLoop tmplId prevId rsrcName rest (some r)
    else
      bestExistingLoop tmplId prevId rsrcName rest candidate

/-- Stack._get_best_existing_rsrc_db (stack.py): start the loop with no
candidate over self.ext_rsrcs_db in iteration order, comparing against
self.t.id and self.prev_raw_template_id. -/
def Stack.get_best_existing_rsrc_db (st : Stack) (ext : List ExtRsrc)
    (rsrcName : String) : Option ExtRsrc :=
  bestExistingLoop st.tmpl_id st.prev_raw_template_id rsrcName ext none

/-- The side effects of the worker's check_resource path (worker.py). -/
inductive WEffect where
  | resourceUpdateAction (rid : Nat) (action : String)
  | retriggerCheckResource (rid : Nat) (isUpdate : Bool)
  | crCheck (rid : Nat) (traversal : String) (isUpdate : Bool)
  deriving DecidableEq, Repr

/-- WorkerService._retrigger_replaced (worker.py): when the resource's node
key is absent from the current convergence graph and the resource replaces
an older one, mark the resource DELETED in the database and re-trigger
check_resource on the replaced resource's key; otherwise do nothing. -/
def retrigger_replaced (isUpdate : Bool) (rsrc : ExtRsrc) (st : Stack) :
    List WEffect :=
  if (rsrc.id, isUpdate) ∉ st.graph_nodes then
    match rsrc.replaces with
    | some rep =>
      [WEffect.resourceUpdateAction rsrc.id "DELETE",
       WEffect.retriggerCheckResource rep isUpdate]
    | none => []
  else []

/-- WorkerService.check_resource (worker.py): load the resource and its
stack (the load result is passed in as `rsrcOpt`/`st`); when the resource
is gone, return. When the supplied traversal differs from the stack's
currently stored traversal, the work item is stale: only
_retrigger_replaced runs and the worker exits; otherwise the resource
action is executed through CheckResource.check. -/
def check_resource (rsrcOpt : Option ExtRsrc) (st : Stack)
    (resourceId : Nat) (currentTraversal : String) (isUpdate : Bool) :
    List WEffect :=
  match rsrcOpt with
  | none => []
  | some rsrc =>
    if currentTraversal ≠ st.current_traversal then
      retrigger_replaced isUpdate rsrc st
    else
      [WEffect.crCheck resourceId currentTraversal isUpdate]

/-! ## Part B: the dependency graph (heat/engine/dependencies.py)

The module heat/engine/dependencies.py is not part of the source tree
here (only its tests and callers are), so the graph and its cycle check
are modelled from the specification, sections 3 and 4.1. -/

variable {ν : Type} [DecidableEq ν]

/-- An edge set in the source's format: (requirer, required) pairs, where
required may be none for a free-standing node with no dependencies. -/
abbrev EdgeList (ν : Type) := List (ν × Option ν)

/-- The requirement relation of an edge set: `a` requires `b`. -/
def edgeRel (edges : EdgeList ν) (a b : ν) : Prop := (a, some b) ∈ edges

instance (edges : EdgeList ν) (a b : ν) : Decidable (edgeRel edges a b) :=
  inferInstanceAs (Decidable ((a, some b) ∈ edges))

/-- All nodes mentioned by an edge set, without duplicates. -/
def depNodes (edges : EdgeList ν) : List ν :=
  (edges.map Prod.fst ++ edges.filterMap Prod.snd).dedup

/-- The direct requirements of a node under an edge set. -/
def requiresOf (edges : EdgeList ν) (n : ν) : List ν :=
  edges.filterMap (fun e => if e.1 = n then e.2 else none)

/-- One round of leaf elimination: keep exactly the nodes that still
require some node of the remaining set (a node whose requirements have all
been eliminated is a leaf and is dropped). -/
def blocked (edges : EdgeList ν) (rem : List ν) : List ν :=
  rem.filter (fun n => (requiresOf edges n).any (fun m => decide (m ∈ rem)))

/-- Iterated leaf elimination up to a fixpoint, with fuel. -/
def elim (edges : EdgeList ν) : Nat → List ν → List ν
  | 0, rem => rem
  | f + 1, rem =>
    let rem' := blocked edges rem
    if rem' = rem then rem else elim edges f rem'

/-- Inside a stalled remainder, pick a requirement that is still present. -/
def pickNext (edges : EdgeList ν) (rem : List ν) (n : ν) : Option ν :=
  (requiresOf edges n).find? (fun m => decide (m ∈ rem))

/-- Walk `pickNext` successors, keeping the reversed path walked so far in
`seen`; as soon as the current node closes a loop, return the cycle as an
ordered node list that ends where it starts. -/
def extractCycle (edges : EdgeList ν) (rem : List ν) :
    Nat → List ν → ν → Option (List ν)
  | 0, _, _ => none
  | f + 1, seen, cur =>
    if cur ∈ seen then
      some ((List.takeWhile (fun x => decide (x ≠ cur)) seen ++ [cur]).reverse
            ++ [cur])
    else
      match pickNext edges rem cur with
      | none => none
      | some m => extractCycle edges rem f (cur :: seen) m

/-- Modelled from the spec: Dependencies construction
(heat/engine/dependencies.py, absent from the source tree) must detect a
cycle at construction time and raise CircularDependencyException carrying
the offending cycle as an ordered list of nodes back to the repeated node.
The error value of the Except is the reported cycle. -/
def circularCheck (edges : EdgeList ν) : Except (List ν) Unit :=
  let ns := depNodes edges
  match elim edges ns.length ns with
  | [] => .ok ()
  | n :: rest =>
    match extractCycle edges (n :: rest) ((n :: rest).length + 1) [] n with
    | some c => .error c
    | none => .ok ()

/-- Modelled from the spec: DependencyTaskGroup construction must reject a
cyclic graph by propagating the same CircularDependencyException
(spec section 4.3); on an acyclic edge set it succeeds, yielding the node
set the group will drive. -/
def mkDependencyTaskGroup (edges : EdgeList ν) : Except (List ν) (List ν) :=
  match circularCheck edges with
  | .error c => .error c
  | .ok _ => .ok (depNodes edges)

/-- A genuine cycle of an edge set: at least two entries, the walk ends at
its starting node, and each consecutive pair is an edge. -/
def IsCycle (edges : EdgeList ν) (c : List ν) : Prop :=
  2 ≤ c.length ∧ c.head? = c.getLast? ∧ List.Chain' (edgeRel edges) c

instance (edges : EdgeList ν) (c : List ν) : Decidable (IsCycle edges c) :=
  inferInstanceAs (Decidable (_ ∧ _ ∧ _))

/-- An edge set contains a cycle. -/
def HasCycle (edges : EdgeList ν) : Prop := ∃ c, IsCycle edges c

/-! ## Part C: TaskRunner and Timeout (heat/engine/scheduler.py)

The module heat/engine/scheduler.py is not part of the source tree here
(only its tests are), so the task runner is modelled from the
specification, sections 4.2 and 7. -/

/-- Modelled from the spec: what a task does when a Timeout is raised into
it at its suspension point — it may swallow it (treating it as a clean
stop) or let it propagate as a run failure (spec section 7). -/
inductive TimeoutReaction where
  | swallow
  | propagate
  deriving DecidableEq, Repr

/-- Modelled from the spec: a resumable task, characterised by the number
of step() calls it still needs before finishing (none = it never finishes
on its own, like the endless loops of the tests) and its reaction to a
Timeout thrown into it. -/
structure SpecTask where
  remaining : Option Nat
  reaction : TimeoutReaction
  deriving DecidableEq, Repr

/-- Modelled from the spec: TaskRunner state — the wrapped task, whether
start() ran, whether the task is done, and the recorded wall-clock
deadline when start was given a timeout. -/
structure TaskRunner where
  task : SpecTask
  started : Bool
  done : Bool
  deadline : Option Nat
  deriving DecidableEq, Repr

/-- Modelled from the spec: TaskRunner.start(timeout) — begins the task
and records a deadline of now + timeout when a timeout is given
(spec section 4.2). -/
def TaskRunner.start (r : TaskRunner) (now : Nat) (timeout : Option Nat) :
    TaskRunner :=
  { r with
    started := true
    done := r.task.remaining = some 0
    deadline := timeout.map (now + ·) }

/-- Modelled from the spec: TaskRunner.step() — each call first checks the
wall-clock deadline: once it has passed, a Timeout is raised into the task
at its suspension point; a task that swallows it is treated as cleanly
done (step reports True, nothing reaches the caller), otherwise the
Timeout propagates out of step() (the Except.error case). With no timeout
pending, one unit of work runs and step reports whether the task is done.
-/
def TaskRunner.step (r : TaskRunner) (now : Nat) :
    Except Unit (Bool × TaskRunner) :=
  if r.done then .ok (true, r)
  else
    let timedOut : Bool := match r.deadline with
      | some d => decide (d < now)
      | none => false
    if timedOut then
      match r.task.reaction with
      | .swallow => .ok (true, { r with done := true })
      | .propagate => .error ()
    else
      match r.task.remaining with
      | none => .ok (false, r)
      | some 0 => .ok (true, { r with done := true })
      | some 1 => .ok (true, { r with done := true, task := { r.task with remaining := some 0 } })
      | some (k + 2) => .ok (false, { r with task := { r.task with remaining := some (k + 1) } })

/-! ## Part D: DependencyTaskGroup (heat/engine/scheduler.py)

Modelled from the specification, section 4.3: one task per ready node (no
unresolved predecessors), stepped round-robin; a completing node makes its
successors candidates; with aggregate_exceptions a failing node's
dependents are transitively cancelled while independent branches run on
and every collected exception is raised together at the end; without it,
error_wait_time delays the propagation of a failure, letting in-flight
siblings finish inside the window. Each loop iteration of the driver is
one time unit. -/

/-- A node of the group: its key, direct predecessors, the number of
do_step calls its action performs when it succeeds, and optionally the
1-based step at which the action raises (with the raised exception). -/
structure GNode (ν ε : Type) where
  name : ν
  preds : List ν
  steps : Nat
  failAt : Option (Nat × ε)
  deriving DecidableEq, Repr

/-- Group policy: aggregate_exceptions flag and error_wait_time. -/
structure GConfig where
  aggregate : Bool
  errorWait : Option Nat
  deriving DecidableEq, Repr

/-- Driver state: nodes not yet started, running tasks with the number of
steps already executed, finished node names, failed nodes with their
exception, cancelled (never-started) node names, the do_step event trace,
the current time, and — in fast-fail mode — the first failure waiting out
its grace window together with its propagation deadline. -/
structure GState (ν ε : Type) where
  pending : List (GNode ν ε)
  running : List (GNode ν ε × Nat)
  done : List ν
  failed : List (ν × ε)
  cancelled : List ν
  trace : List ν
  time : Nat
  pendingError : Option (ε × Nat)
  deriving DecidableEq, Repr

/-- Split the not-yet-started nodes into: ready (every predecessor done),
cancellable (some predecessor failed or cancelled; in aggregate mode such
a node is transitively cancelled, never started), and still waiting. -/
def partitionPending (done failedNames cancelled : List ν) :
    List (GNode ν ε) → List (GNode ν ε) × List (GNode ν ε) × List (GNode ν ε)
  | [] => ([], [], [])
  | n :: rest =>
    let prev := partitionPending done failedNames cancelled rest
    if n.preds.all (fun q => decide (q ∈ done)) then
      (n :: prev.1, prev.2.1, prev.2.2)
    else if n.preds.any (fun q =>
        decide (q ∈ failedNames) || decide (q ∈ cancelled)) then
      (prev.1, n :: prev.2.1, prev.2.2)
    else (prev.1, prev.2.1, n :: prev.2.2)

/-- Advance every running task by one do_step, in round-robin list order.
Returns the still-running tasks, the names that finished, the nodes that
raised (with their exception), and the emitted do_step events. A task
raises when it reaches its failing step; otherwise it finishes once its
step count is exhausted. -/
def stepRunners : List (GNode ν ε × Nat) →
    List (GNode ν ε × Nat) × List ν × List (ν × ε) × List ν
  | [] => ([], [], [], [])
  | (n, k) :: rest =>
    let prev := stepRunners rest
    match n.failAt with
    | some fe =>
      if fe.1 = k + 1 then
        (prev.1, prev.2.1, (n.name, fe.2) :: prev.2.2.1, n.name :: prev.2.2.2)
      else if n.steps ≤ k + 1 then
        (prev.1, n.name :: prev.2.1, prev.2.2.1, n.name :: prev.2.2.2)
      else
        ((n, k + 1) :: prev.1, prev.2.1, prev.2.2.1, n.name :: prev.2.2.2)
    | none =>
      if n.steps ≤ k + 1 then
        (prev.1, n.name :: prev.2.1, prev.2.2.1, n.name :: prev.2.2.2)
      else
        ((n, k + 1) :: prev.1, prev.2.1, prev.2.2.1, n.name :: prev.2.2.2)

/-- The start-phase split of the pending nodes for one driver iteration:
ready / to-cancel / still-waiting. While a fast-fail failure waits out its
grace window, nothing starts and nothing is cancelled. -/
def gsParts (cfg : GConfig) (s : GState ν ε) :
    List (GNode ν ε) × List (GNode ν ε) × List (GNode ν ε) :=
  if !cfg.aggregate && s.pendingError.isSome then ([], [], s.pending)
  else partitionPending s.done (s.failed.map Prod.fst) s.cancelled s.pending

/-- The tasks stepped in one driver iteration: the already-running ones
followed by the freshly started ready nodes (zero-step nodes complete at
start and are never stepped). -/
def gsInput (cfg : GConfig) (s : GState ν ε) : List (GNode ν ε × Nat) :=
  s.running ++
    ((gsParts cfg s).1.filter (fun n => !decide (n.steps = 0))).map
      (fun n => (n, 0))

/-- One iteration of the group driver: start the ready nodes (unless a
fast-fail failure is waiting out its grace window, during which no new
node starts), transitively cancel nodes with a failed or cancelled
predecessor, then step every task once. A zero-step node completes at
start without emitting events. A first failure in fast-fail mode arms the
grace window with deadline time + error_wait_time. -/
def groupStep (cfg : GConfig) (s : GState ν ε) : GState ν ε :=
  { pending := (gsParts cfg s).2.2
    running := (stepRunners (gsInput cfg s)).1
    done := s.done ++
      ((gsParts cfg s).1.filter (fun n => decide (n.steps = 0))).map GNode.name
      ++ (stepRunners (gsInput cfg s)).2.1
    failed := s.failed ++ (stepRunners (gsInput cfg s)).2.2.1
    cancelled := s.cancelled ++ (gsParts cfg s).2.1.map GNode.name
    trace := s.trace ++ (stepRunners (gsInput cfg s)).2.2.2
    time := s.time + 1
    pendingError :=
      match s.pendingError with
      | some pe => some pe
      | none =>
        if cfg.aggregate then none
        else
          match (stepRunners (gsInput cfg s)).2.2.1 with
          | [] => none
          | (_, e) :: _ => some (e, s.time + cfg.errorWait.getD 0) }

/-- The final outcome of a group run: clean completion, a single
propagated exception (fast-fail mode), the aggregated ExceptionGroup
(aggregate mode), or fuel exhaustion of the model. -/
inductive GOutcome (ε : Type) where
  | ok
  | err (e : ε)
  | group (es : List ε)
  | fuelOut
  deriving DecidableEq, Repr

/-- Drive the group to its outcome. In fast-fail mode a held failure
propagates (unchanged) as soon as every in-flight sibling has finished or
its grace deadline has passed, whichever comes first; otherwise the run
ends when nothing is pending or running — in aggregate mode raising all
collected exceptions together when there are any. -/
def runGroup (cfg : GConfig) : Nat → GState ν ε → GState ν ε × GOutcome ε
  | 0, s => (s, .fuelOut)
  | f + 1, s =>
    match s.pendingError with
    | some pe =>
      if s.running.isEmpty || decide (pe.2 ≤ s.time) then (s, .err pe.1)
      else runGroup cfg f (groupStep cfg s)
    | none =>
      if s.pending.isEmpty && s.running.isEmpty then
        if cfg.aggregate && !s.failed.isEmpty then (s, .group (s.failed.map Prod.snd))
        else (s, .ok)
      else runGroup cfg f (groupStep cfg s)

/-- The initial driver state over a node list. -/
def initGState (nodes : List (GNode ν ε)) : GState ν ε :=
  ⟨nodes, [], [], [], [], [], 0, none⟩

/-- Every occurrence of `a` in the list comes strictly before every
occurrence of `b`: after any occurrence of `b`, `a` never occurs. -/
def noneAfter (a b : ν) : List ν → Prop
  | [] => True
  | x :: xs => (x = b → a ∉ xs) ∧ noneAfter a b xs

instance noneAfterDec (a b : ν) : (l : List ν) → Decidable (noneAfter a b l)
  | [] => .isTrue trivial
  | x :: xs =>
    have : Decidable (noneAfter a b xs) := noneAfterDec a b xs
    inferInstanceAs (Decidable ((x = b → a ∉ xs) ∧ noneAfter a b xs))

/-- A node whose action genuinely raises: its failing step lies within its
step budget. -/
def nodeFails (n : GNode ν ε) : Prop :=
  ∃ fk e, n.failAt = some (fk, e) ∧ 1 ≤ fk ∧ fk ≤ n.steps

/-- Some node of the group named `x` fails. -/
def failingName (nodes : List (GNode ν ε)) (x : ν) : Prop :=
  ∃ n ∈ nodes, n.name = x ∧ nodeFails n

/-- Transitive dependents of a failing node. -/
inductive Doomed (nodes : List (GNode ν ε)) : ν → Prop where
  | direct (n : GNode ν ε) (p : ν) : n ∈ nodes → p ∈ n.preds →
      failingName nodes p → Doomed nodes n.name
  | trans (n : GNode ν ε) (p : ν) : n ∈ nodes → p ∈ n.preds →
      Doomed nodes p → Doomed nodes n.name

/-- The chain of the tests: third requires second requires first, with a
step count per node and no failures. -/
def chainNodes (sa sb sc : Nat) : List (GNode String Nat) :=
  [⟨"first", [], sa, none⟩, ⟨"second", ["first"], sb, none⟩,
   ⟨"third", ["second"], sc, none⟩]

/-- The diamond of the tests: last requires mid1 and mid2, both requiring
first. -/
def diamondNodes (sa s1 s2 sd : Nat) : List (GNode String Nat) :=
  [⟨"first", [], sa, none⟩, ⟨"mid1", ["first"], s1, none⟩,
   ⟨"mid2", ["first"], s2, none⟩, ⟨"last", ["mid1", "mid2"], sd, none⟩]

/-! ## Concrete instances used by witnesses and counterexamples -/

/-- A stored convergence stack mid-update, driven by traversal T2. -/
def stackEx : Stack :=
  ⟨1, "s", true, "UPDATE", "IN_PROGRESS", "going", "T2", some 10, 11, []⟩

/-- The database row matching stackEx. -/
def dbEx : DbStack := ⟨"T2", "UPDATE", "IN_PROGRESS", "going", some 10, 11⟩

/-- A database row already advanced by a concurrent writer to T9. -/
def dbStale : DbStack := ⟨"T9", "UPDATE", "IN_PROGRESS", "x", none, 10⟩

/-- A resource row of the current template generation (template 11). -/
def rsrcCur : ExtRsrc := ⟨1, "net", 11, none⟩

/-- A resource row of the previous template generation (template 10). -/
def rsrcPrev : ExtRsrc := ⟨2, "net", 10, none⟩

/-- A resource row of an older template generation. -/
def rsrcOld : ExtRsrc := ⟨3, "net", 7, none⟩

/-- The database projection of an embedded stack operation's result:
none when the operation raised, otherwise the database state it left
behind. -/
def resultDb : Except String (Stack × Option DbStack × List Effect) →
    Option (Option DbStack)
  | .ok (_, db, _) => some db
  | .error _ => none

/-- The effect-list projection of an embedded stack operation's result. -/
def resultEffects : Except String (Stack × Option DbStack × List Effect) →
    Option (List Effect)
  | .ok (_, _, effs) => some effs
  | .error _ => none

/-- The traversal stored in the database after an embedded stack
operation: none when the operation raised, some none when the stack row
was deleted, some (some t) when the row remains with traversal t. -/
def storedTraversal : Except String (Stack × Option DbStack × List Effect) →
    Option (Option String)
  | .ok (_, db, _) => some (db.map DbStack.current_traversal)
  | .error _ => none

/-- Every node name in the driver state, over all buckets. A group run
moves names between buckets without duplicating or dropping them. -/
def namesOf (s : GState ν ε) : List ν :=
  s.pending.map GNode.name ++ s.running.map (fun r => r.1.name) ++ s.done ++
    s.failed.map Prod.fst ++ s.cancelled

/-- Precedence invariant for a required node `a` and a requirer `b`:
pending entries named b require a; b can only have started (be running,
done, failed, or traced) once a finished; no name is duplicated across
buckets; the trace never shows a after b. -/
def PrecInv (a b : ν) (s : GState ν ε) : Prop :=
  (∀ n ∈ s.pending, n.name = b → a ∈ n.preds) ∧
  ((b ∈ s.running.map (fun r => r.1.name) ∨ b ∈ s.done ∨
    b ∈ s.failed.map Prod.fst ∨ b ∈ s.trace) → a ∈ s.done) ∧
  (namesOf s).Nodup ∧
  noneAfter a b s.trace

/-- Failure invariant of a group run over an initial node list: pending
and running entries carry node specs of the list with in-range step
counters; recorded failures are genuine (the named node's action raises
the recorded exception within its step budget); cancelled nodes are
transitive dependents of failing nodes; nodes doomed by a failing
ancestor never run (they stay out of running, done, failed and the
trace); failing nodes never complete; and no name is duplicated. -/
def GroupInv (nodes : List (GNode ν ε)) (s : GState ν ε) : Prop :=
  (∀ n ∈ s.pending, n ∈ nodes) ∧
  (∀ p ∈ s.running, p.1 ∈ nodes ∧ p.2 < p.1.steps ∧
    ∀ fk e, p.1.failAt = some (fk, e) → fk = 0 ∨ p.2 < fk) ∧
  (∀ x e, (x, e) ∈ s.failed → ∃ n ∈ nodes, n.name = x ∧
    ∃ fk, n.failAt = some (fk, e) ∧ 1 ≤ fk ∧ fk ≤ n.steps) ∧
  (∀ x ∈ s.cancelled, Doomed nodes x) ∧
  (∀ x, Doomed nodes x → x ∉ s.running.map (fun r => r.1.name) ∧
    x ∉ s.done ∧ x ∉ s.failed.map Prod.fst ∧ x ∉ s.trace) ∧
  (∀ x, failingName nodes x → x ∉ s.done) ∧
  (namesOf s).Nodup

/-- The aggregate-exceptions scenario of the tests: three independent
nodes; C's action raises exception 1 at step 1, B's raises exception 2 at
step 2, A runs three steps to completion. -/
def aggDisjointNodes : List (GNode String Nat) :=
  [⟨"A", [], 3, none⟩, ⟨"B", [], 3, some (2, 2)⟩, ⟨"C", [], 3, some (1, 1)⟩]

/-- The recursive-cancellation scenario of the tests: A fails at its first
step with exception 7; B requires A and C requires B. -/
def aggChainNodes : List (GNode String Nat) :=
  [⟨"A", [], 3, some (1, 7)⟩, ⟨"B", ["A"], 3, none⟩, ⟨"C", ["B"], 3, none⟩]

/-- The grace-period scenario of the tests: A fails at step 2 with
exception 9 while sibling B (3 steps) is in flight; C requires A. -/
def graceNodes : List (GNode String Nat) :=
  [⟨"A", [], 3, some (2, 9)⟩, ⟨"B", [], 3, none⟩, ⟨"C", ["A"], 3, none⟩]

/-- The expired-grace-period scenario of the tests: as graceNodes but with
five-step actions, so the window closes before B finishes. -/
def graceExpiredNodes : List (GNode String Nat) :=
  [⟨"A", [], 5, some (2, 9)⟩, ⟨"B", [], 5, none⟩, ⟨"C", ["A"], 5, none⟩]

/-- The three-node cycle of the tests: first requires second requires
third requires first. -/
def cyclicEdgesEx : EdgeList String :=
  [("first", some "second"), ("second", some "third"), ("third", some "first")]

/-! ## Theorems -/

/-- C10: For every call to Stack.state_set with an action not in the
stack's ACTIONS set or a status not in its STATUSES set, a ValueError is
raised before any in-memory state is changed or any database write occurs:
the embedded state_set returns Except.error from its leading validation,
producing no updated stack, no updated database and no effects, so the
caller's state is exactly what it was. -/
theorem state_set_invalid_raises (st : Stack) (db : Option DbStack)
    (action status reason : String)
    (h : action ∉ ACTIONS ∨ status ∉ STATUSES) :
    ∃ msg, st.state_set db action status reason = .error msg := by
  by_cases ha : action ∈ ACTIONS
  · rcases h with h | h
    · exact absurd ha h
    · exact ⟨"Invalid status " ++ status, by simp [Stack.state_set, ha, h]⟩
  · exact ⟨"Invalid action " ++ action, by simp [Stack.state_set, ha]⟩

/-- Witness for C10: the invalid action FROB is rejected. -/
theorem state_set_invalid_raises_witness :
    ("FROB" ∉ ACTIONS ∨ "COMPLETE" ∉ STATUSES) ∧
      ∃ msg, stackEx.state_set (some dbEx) "FROB" "COMPLETE" "r" = .error msg :=
  ⟨Or.inl (by decide),
   state_set_invalid_raises stackEx (some dbEx) "FROB" "COMPLETE" "r"
     (Or.inl (by decide))⟩

theorem bestExistingLoop_current (tid : Nat) (pid : Option Nat) (nm : String)
    (ext : List ExtRsrc) (cand : Option ExtRsrc)
    (h : ∃ r ∈ ext, r.name = nm ∧ r.current_template_id = tid) :
    ∃ r', bestExistingLoop tid pid nm ext cand = some r' ∧
      r'.name = nm ∧ r'.current_template_id = tid := by
  induction ext generalizing cand with
  | nil => simp at h
  | cons r rest ih =>
    rcases h with ⟨r₀, hr₀, hnm, htid⟩
    by_cases hn : r.name = nm
    · by_cases hc : r.current_template_id = tid
      · exact ⟨r, by simp [bestExistingLoop, hn, hc], hn, hc⟩
      · have hmem : r₀ ∈ rest := by
          rcases List.mem_cons.mp hr₀ with h | h
          · subst h; exact absurd htid hc
          · exact h
        have h' : ∃ x ∈ rest, x.name = nm ∧ x.current_template_id = tid :=
          ⟨r₀, hmem, hnm, htid⟩
        by_cases hp : some r.current_template_id = pid
        · simpa [bestExistingLoop, hn, hc, hp] using ih (some r) h'
        · by_cases hcn : cand = none
          · simpa [bestExistingLoop, hn, hc, hp, hcn] using ih (some r) h'
          · simpa [bestExistingLoop, hn, hc, hp, hcn] using ih cand h'
    · have hmem : r₀ ∈ rest := by
        rcases List.mem_cons.mp hr₀ with h | h
        · subst h; exact absurd hnm hn
        · exact h
      simpa [bestExistingLoop, hn] using ih cand ⟨r₀, hmem, hnm, htid⟩

theorem bestExistingLoop_keep (tid : Nat) (pid : Option Nat) (nm : String)
    (ext : List ExtRsrc) (r₀ : ExtRsrc)
    (hcur : ¬ ∃ r ∈ ext, r.name = nm ∧ r.current_template_id = tid)
    (hprev : ¬ ∃ r ∈ ext, r.name = nm ∧ some r.current_template_id = pid) :
    bestExistingLoop tid pid nm ext (some r₀) = some r₀ := by
  induction ext with
  | nil => rfl
  | cons r rest ih =>
    have hcur' : ¬ ∃ x ∈ rest, x.name = nm ∧ x.current_template_id = tid :=
      fun ⟨x, hx, h1, h2⟩ => hcur ⟨x, List.mem_cons_of_mem _ hx, h1, h2⟩
    have hprev' : ¬ ∃ x ∈ rest, x.name = nm ∧ some x.current_template_id = pid :=
      fun ⟨x, hx, h1, h2⟩ => hprev ⟨x, List.mem_cons_of_mem _ hx, h1, h2⟩
    by_cases hn : r.name = nm
    · have hc : ¬ r.current_template_id = tid :=
        fun hc => hcur ⟨r, List.mem_cons_self _ _, hn, hc⟩
      have hp : ¬ some r.current_template_id = pid :=
        fun hp => hprev ⟨r, List.mem_cons_self _ _, hn, hp⟩
      simpa [bestExistingLoop, hn, hc, hp] using ih hcur' hprev'
    · simpa [bestExistingLoop, hn] using ih hcur' hprev'

theorem bestExistingLoop_prev (tid : Nat) (pid : Option Nat) (nm : String)
    (ext : List ExtRsrc) (cand : Option ExtRsrc)
    (hcur : ¬ ∃ r ∈ ext, r.name = nm ∧ r.current_template_id = tid)
    (hprev : ∃ r ∈ ext, r.name = nm ∧ some r.current_template_id = pid) :
    ∃ r', bestExistingLoop tid pid nm ext cand = some r' ∧
      r'.name = nm ∧ some r'.current_template_id = pid := by
  induction ext generalizing cand with
  | nil => simp at hprev
  | cons r rest ih =>
    have hcur' : ¬ ∃ x ∈ rest, x.name = nm ∧ x.current_template_id = tid :=
      fun ⟨x, hx, h1, h2⟩ => hcur ⟨x, List.mem_cons_of_mem _ hx, h1, h2⟩
    by_cases hn : r.name = nm
    · have hc : ¬ r.current_template_id = tid :=
        fun hc => hcur ⟨r, List.mem_cons_self _ _, hn, hc⟩
      by_cases hp : some r.current_template_id = pid
      · by_cases hrest : ∃ x ∈ rest, x.name = nm ∧ some x.current_template_id = pid
        · simpa [bestExistingLoop, hn, hc, hp] using ih (some r) hcur' hrest
        · refine ⟨r, ?_, hn, hp⟩
          simpa [bestExistingLoop, hn, hc, hp] using
            bestExistingLoop_keep tid pid nm rest r hcur' hrest
      · have hrest : ∃ x ∈ rest, x.name = nm ∧ some x.current_template_id = pid := by
          rcases hprev with ⟨x, hx, h1, h2⟩
          rcases List.mem_cons.mp hx with h | h
          · subst h; exact absurd h2 hp
          · exact ⟨x, h, h1, h2⟩
        by_cases hcn : cand = none
        · simpa [bestExistingLoop, hn, hc, hp, hcn] using ih (some r) hcur' hrest
        · simpa [bestExistingLoop, hn, hc, hp, hcn] using ih cand hcur' hrest
    · have hrest : ∃ x ∈ rest, x.name = nm ∧ some x.current_template_id = pid := by
        rcases hprev with ⟨x, hx, h1, h2⟩
        rcases List.mem_cons.mp hx with h | h
        · subst h; exact absurd h1 hn
        · exact ⟨x, h, h1, h2⟩
      simpa [bestExistingLoop, hn] using ih cand hcur' hrest

theorem bestExistingLoop_fallback (tid : Nat) (pid : Option Nat) (nm : String)
    (ext : List ExtRsrc)
    (hcur : ¬ ∃ r ∈ ext, r.name = nm ∧ r.current_template_id = tid)
    (hprev : ¬ ∃ r ∈ ext, r.name = nm ∧ some r.current_template_id = pid) :
    bestExistingLoop tid pid nm ext none =
      (ext.filter (fun r => r.name = nm)).head? := by
  induction ext with
  | nil => rfl
  | cons r rest ih =>
    have hcur' : ¬ ∃ x ∈ rest, x.name = nm ∧ x.current_template_id = tid :=
      fun ⟨x, hx, h1, h2⟩ => hcur ⟨x, List.mem_cons_of_mem _ hx, h1, h2⟩
    have hprev' : ¬ ∃ x ∈ rest, x.name = nm ∧ some x.current_template_id = pid :=
      fun ⟨x, hx, h1, h2⟩ => hprev ⟨x, List.mem_cons_of_mem _ hx, h1, h2⟩
    by_cases hn : r.name = nm
    · have hc : ¬ r.current_template_id = tid :=
        fun hc => hcur ⟨r, List.mem_cons_self _ _, hn, hc⟩
      have hp : ¬ some r.current_template_id = pid :=
        fun hp => hprev ⟨r, List.mem_cons_self _ _, hn, hp⟩
      have := bestExistingLoop_keep tid pid nm rest r hcur' hprev'
      simp [bestExistingLoop, hn, hc, hp, this, List.filter_cons]
    · simp [bestExistingLoop, hn, ih hcur' hprev', List.filter_cons]

/-- C9: For every resource name with at least one matching active row,
_get_best_existing_rsrc_db returns a row matching the current template id
when one exists; otherwise a row matching the previous raw-template id
when one exists; otherwise the earliest same-named row in iteration
order. -/
theorem get_best_existing_rsrc_db_priority (st : Stack) (ext : List ExtRsrc)
    (nm : String) :
    ((∃ r ∈ ext, r.name = nm ∧ r.current_template_id = st.tmpl_id) →
      ∃ r', st.get_best_existing_rsrc_db ext nm = some r' ∧
        r'.name = nm ∧ r'.current_template_id = st.tmpl_id) ∧
    ((¬ ∃ r ∈ ext, r.name = nm ∧ r.current_template_id = st.tmpl_id) →
      (∃ r ∈ ext, r.name = nm ∧ some r.current_template_id = st.prev_raw_template_id) →
      ∃ r', st.get_best_existing_rsrc_db ext nm = some r' ∧
        r'.name = nm ∧ some r'.current_template_id = st.prev_raw_template_id) ∧
    ((¬ ∃ r ∈ ext, r.name = nm ∧ r.current_template_id = st.tmpl_id) →
      (¬ ∃ r ∈ ext, r.name = nm ∧ some r.current_template_id = st.prev_raw_template_id) →
      st.get_best_existing_rsrc_db ext nm =
        (ext.filter (fun r => r.name = nm)).head?) :=
  ⟨fun h => bestExistingLoop_current _ _ _ _ _ h,
   fun h1 h2 => bestExistingLoop_prev _ _ _ _ _ h1 h2,
   fun h1 h2 => bestExistingLoop_fallback _ _ _ _ h1 h2⟩

/-- Witness for C9: on rows of an old, the previous and the current
template generation, the current-generation row is returned. -/
theorem get_best_existing_rsrc_db_priority_witness :
    (∃ r ∈ [rsrcOld, rsrcPrev, rsrcCur], r.name = "net" ∧
      r.current_template_id = stackEx.tmpl_id) ∧
    ∃ r', stackEx.get_best_existing_rsrc_db [rsrcOld, rsrcPrev, rsrcCur] "net" = some r' ∧
      r'.name = "net" ∧ r'.current_template_id = stackEx.tmpl_id := by
  refine ⟨⟨rsrcCur, by decide, by decide, by decide⟩, ?_⟩
  exact (get_best_existing_rsrc_db_priority stackEx [rsrcOld, rsrcPrev, rsrcCur]
    "net").1 ⟨rsrcCur, by decide, by decide, by decide⟩

/-- C1: For every convergence operation, a fresh traversal id is generated
and the stack stored via compare-and-swap keyed on the previous traversal;
when the stored row was already advanced by a concurrent writer, the
operation aborts quietly: converge_stack returns normally (no exception),
the database row is left exactly as the winner wrote it, and no effects at
all are performed — in particular no sync point is created and no leaf is
dispatched to the worker. -/
theorem converge_stack_cas_abort (st : Stack) (db : DbStack) (tmplId : Nat)
    (action fresh : String) (deps : List ((Nat × Bool) × List (Nat × Bool)))
    (h : db.current_traversal ≠ st.current_traversal) :
    resultDb (st.converge_stack (some db) tmplId action fresh deps) =
      some (some db) ∧
    resultEffects (st.converge_stack (some db) tmplId action fresh deps) =
      some [] := by
  by_cases ha : action ∈ ["CREATE", "ADOPT"] <;>
    constructor <;>
      simp [Stack.converge_stack, Stack.store, select_and_update, resultDb,
        resultEffects, ha, h]

/-- Witness for C1: a writer already moved the row to T9 while this stack
still believes the traversal is T2, so convergence aborts with no
effects. -/
theorem converge_stack_cas_abort_witness :
    dbStale.current_traversal ≠ stackEx.current_traversal ∧
    resultDb (stackEx.converge_stack (some dbStale) 11 "UPDATE" "T3"
      [((5, true), [])]) = some (some dbStale) ∧
    resultEffects (stackEx.converge_stack (some dbStale) 11 "UPDATE" "T3"
      [((5, true), [])]) = some [] :=
  ⟨by decide,
   converge_stack_cas_abort stackEx dbStale 11 "UPDATE" "T3" [((5, true), [])]
     (by decide)⟩

/-- C2: For every invocation of the worker's check_resource with a
traversal id different from the stack's currently stored traversal, the
resource action is never executed (no CheckResource.check effect occurs);
the worker at most re-triggers the replacement chain — marking the
superseded resource DELETED and re-dispatching its replacement — and then
exits. -/
theorem check_resource_stale_traversal (rsrcOpt : Option ExtRsrc) (st : Stack)
    (rid : Nat) (trav : String) (isU : Bool)
    (h : trav ≠ st.current_traversal) :
    (∀ n t u, WEffect.crCheck n t u ∉ check_resource rsrcOpt st rid trav isU) ∧
    (check_resource rsrcOpt st rid trav isU = [] ∨
      ∃ r rep, rsrcOpt = some r ∧ r.replaces = some rep ∧
        (r.id, isU) ∉ st.graph_nodes ∧
        check_resource rsrcOpt st rid trav isU =
          [WEffect.resourceUpdateAction r.id "DELETE",
           WEffect.retriggerCheckResource rep isU]) := by
  match rsrcOpt with
  | none => exact ⟨by simp [check_resource], Or.inl rfl⟩
  | some r =>
    by_cases hg : (r.id, isU) ∈ st.graph_nodes
    · constructor
      · intro n t u
        simp [check_resource, retrigger_replaced, h, hg]
      · exact Or.inl (by simp [check_resource, retrigger_replaced, h, hg])
    · match hrep : r.replaces with
      | none =>
        constructor
        · intro n t u
          simp [check_resource, retrigger_replaced, h, hg, hrep]
        · exact Or.inl (by simp [check_resource, retrigger_replaced, h, hg, hrep])
      | some rep =>
        constructor
        · intro n t u
          simp [check_resource, retrigger_replaced, h, hg, hrep]
        · exact Or.inr ⟨r, rep, rfl, hrep, hg,
            by simp [check_resource, retrigger_replaced, h, hg, hrep]⟩

/-- Witness for C2: a worker invoked with stale traversal Told on a stack
now at T2 performs no resource action. -/
theorem check_resource_stale_traversal_witness :
    ("Told" : String) ≠ stackEx.current_traversal ∧
    ∀ n t u, WEffect.crCheck n t u ∉
      check_resource (some ⟨5, "srv", 11, some 4⟩) stackEx 5 "Told" true :=
  ⟨by decide,
   (check_resource_stale_traversal (some ⟨5, "srv", 11, some 4⟩) stackEx 5
     "Told" true (by decide)).1⟩

/-- C8 counterexample: the claim says that after an operation reaches a
terminal state, the traversal that drove it is no longer stored as
current. On a successful (UPDATE, COMPLETE) completion the code never
clears or replaces the stored traversal (_persist_state clears it only on
FAILED, and purge_db rewrites the same traversal): after mark_complete on
the stack driven by T2, the database still stores T2 as current. -/
theorem mark_complete_traversal_persists_cex :
    ∃ st' db' effs,
      stackEx.mark_complete (some dbEx) = .ok (st', some db', effs) ∧
      st'.action = "UPDATE" ∧ st'.status = "COMPLETE" ∧
      db'.current_traversal = stackEx.current_traversal := by
  exact ⟨_, _, _, rfl, rfl, rfl, rfl⟩

/-- C8 (amended): a fresh traversal id is created at the start of every
create/update/delete/rollback convergence operation and stored as the
current traversal; when the operation fails the stored traversal is
cleared (set to the empty string); when a DELETE completes the stack row
itself — and with it the traversal — is deleted; but after a successful
completion of any other action the driving traversal remains stored as
current, and is only replaced when a later operation supersedes it. -/
theorem traversal_lifecycle (st : Stack) (db : DbStack) (tmplId : Nat)
    (action fresh : String) (deps : List ((Nat × Bool) × List (Nat × Bool))) :
    (action ∈ ["CREATE", "UPDATE", "DELETE", "ROLLBACK"] →
      db.current_traversal = st.current_traversal →
      deps.filter (fun n => n.2 = []) ≠ [] →
      storedTraversal (st.converge_stack (some db) tmplId action fresh deps) =
        some (some fresh)) ∧
    (st.convergence = true → st.status = "FAILED" →
      db.current_traversal = st.current_traversal →
      ((st.persist_state (some db)).2.1).map DbStack.current_traversal =
        some "" ∧ (st.persist_state (some db)).2.2.1 = some true) ∧
    (st.convergence = true → st.action = "DELETE" →
      db.current_traversal = st.current_traversal →
      resultDb (st.mark_complete (some db)) = some none) ∧
    (st.convergence = true → st.action ∈ ["CREATE", "UPDATE", "ROLLBACK"] →
      db.current_traversal = st.current_traversal →
      storedTraversal (st.mark_complete (some db)) =
        some (some st.current_traversal)) := by
  refine ⟨?_, ?_, ?_, ?_⟩
  · intro hact hcas hleaf
    simp only [List.mem_cons, List.not_mem_nil, or_false] at hact
    have hna : action ∉ ["CREATE", "ADOPT"] ∨ action = "CREATE" := by
      rcases hact with h | h | h | h <;> subst h <;> simp
    rcases hna with hna | hna <;>
      simp [Stack.converge_stack, Stack.store, select_and_update,
        storedTraversal, hna, hcas, hleaf]
  · intro hconv hfail hcas
    constructor <;>
      simp [Stack.persist_state, select_and_update, hconv, hfail, hcas]
  · intro hconv hdel hcas
    by_cases hpt : st.prev_raw_template_id.isSome <;>
      simp [Stack.mark_complete, Stack.state_set, Stack.persist_state,
        Stack.purge_db, Stack.store, select_and_update, resultDb, hconv, hdel,
        hcas, hpt, ACTIONS, STATUSES]
  · intro hconv hact hcas
    simp only [List.mem_cons, List.not_mem_nil, or_false] at hact
    rcases hact with h | h | h <;>
      by_cases hpt : st.prev_raw_template_id.isSome <;>
        simp [Stack.mark_complete, Stack.state_set, Stack.persist_state,
          Stack.purge_db, Stack.store, select_and_update, storedTraversal,
          hconv, h, hcas, hpt, ACTIONS, STATUSES]

/-- Witness for C8 (amended): the concrete UPDATE run of the
counterexample instantiates the create-and-store part and the
remains-current part. -/
theorem traversal_lifecycle_witness :
    ("UPDATE" ∈ ["CREATE", "UPDATE", "DELETE", "ROLLBACK"] ∧
      dbEx.current_traversal = stackEx.current_traversal ∧
      ([((5, true), [])] : List ((Nat × Bool) × List (Nat × Bool))).filter
        (fun n => n.2 = []) ≠ []) ∧
    storedTraversal (stackEx.converge_stack (some dbEx) 11 "UPDATE" "T3"
      [((5, true), [])]) = some (some "T3") ∧
    storedTraversal (stackEx.mark_complete (some dbEx)) =
      some (some stackEx.current_traversal) := by
  refine ⟨⟨by decide, by decide, by decide⟩, ?_, ?_⟩
  · exact (traversal_lifecycle stackEx dbEx 11 "UPDATE" "T3"
      [((5, true), [])]).1 (by decide) (by decide) (by decide)
  · exact (traversal_lifecycle stackEx dbEx 11 "UPDATE" "T3"
      [((5, true), [])]).2.2.2 (by decide) (by decide) (by decide)

/-- C6: For every started TaskRunner with a timeout, step() checks the
wall-clock deadline before advancing: once the deadline has passed, a
Timeout is raised into the task at its suspension point; a task that
swallows the Timeout is reported done by step() with no exception reaching
the caller, while a task that lets it propagate makes step() fail with the
Timeout; while the deadline has not passed, step() never raises a
Timeout. -/
theorem taskrunner_timeout_step (t : SpecTask) (s timeout now : Nat)
    (hrem : t.remaining ≠ some 0) :
    (s + timeout < now →
      (t.reaction = .swallow →
        (TaskRunner.start ⟨t, false, false, none⟩ s (some timeout)).step now =
          .ok (true, { task := t, started := true, done := true,
                       deadline := some (s + timeout) })) ∧
      (t.reaction = .propagate →
        (TaskRunner.start ⟨t, false, false, none⟩ s (some timeout)).step now =
          .error ())) ∧
    (¬ s + timeout < now →
      ∀ e, (TaskRunner.start ⟨t, false, false, none⟩ s (some timeout)).step now ≠
        .error e) := by
  constructor
  · intro hlt
    constructor <;> intro hr <;>
      simp [TaskRunner.start, TaskRunner.step, hrem, hlt, hr]
  · intro hge e
    match ht : t.remaining with
    | none => simp [TaskRunner.start, TaskRunner.step, hrem, hge, ht]
    | some 0 => exact absurd ht hrem
    | some 1 => simp [TaskRunner.start, TaskRunner.step, hrem, hge, ht]
    | some (k + 2) => simp [TaskRunner.start, TaskRunner.step, hrem, hge, ht]

/-- Witness for C6: an endless task with a 1-unit timeout started at time
0 and stepped at time 2: a swallowing task is reported cleanly done. -/
theorem taskrunner_timeout_step_witness :
    ((⟨none, .swallow⟩ : SpecTask).remaining ≠ some 0) ∧
    (TaskRunner.start ⟨⟨none, .swallow⟩, false, false, none⟩ 0 (some 1)).step 2 =
      .ok (true, { task := ⟨none, .swallow⟩, started := true, done := true,
                   deadline := some 1 }) := by
  refine ⟨by decide, ?_⟩
  exact ((taskrunner_timeout_step ⟨none, .swallow⟩ 0 1 2 (by decide)).1
    (by decide)).1 rfl

theorem mem_requiresOf {edges : EdgeList ν} {n m : ν} :
    m ∈ requiresOf edges n ↔ edgeRel edges n m := by
  unfold requiresOf edgeRel
  rw [List.mem_filterMap]
  constructor
  · rintro ⟨⟨a, b⟩, hab, hb⟩
    by_cases ha : a = n
    · subst ha; simp at hb; subst hb; exact hab
    · simp [ha] at hb
  · intro h
    exact ⟨(n, some m), h, by simp⟩

theorem pickNext_sound {edges : EdgeList ν} {rem : List ν} {n m : ν}
    (h : pickNext edges rem n = some m) :
    edgeRel edges n m ∧ m ∈ rem := by
  have hm := List.mem_of_find?_eq_some h
  have hp := List.find?_some h
  exact ⟨mem_requiresOf.mp hm, by simpa using hp⟩

theorem blocked_sublist (edges : EdgeList ν) (rem : List ν) :
    List.Sublist (blocked edges rem) rem :=
  List.filter_sublist rem

theorem blocked_fix_mem {edges : EdgeList ν} {rem : List ν}
    (hfix : blocked edges rem = rem) {n : ν} (hn : n ∈ rem) :
    ∃ m, pickNext edges rem n = some m := by
  have := List.filter_eq_self.mp hfix n hn
  rw [List.any_eq_true] at this
  rcases this with ⟨m, hm, hmem⟩
  have : (requiresOf edges n).find?
      (fun m => decide (m ∈ rem)) |>.isSome := by
    rw [List.find?_isSome]
    exact ⟨m, hm, hmem⟩
  rcases Option.isSome_iff_exists.mp this with ⟨m', hm'⟩
  exact ⟨m', hm'⟩

theorem elim_fixpoint (edges : EdgeList ν) :
    ∀ (f : Nat) (rem : List ν), rem.length ≤ f →
      blocked edges (elim edges f rem) = elim edges f rem := by
  intro f
  induction f with
  | zero =>
    intro rem hlen
    have : rem = [] := List.length_eq_zero.mp (Nat.le_zero.mp hlen)
    subst this
    rfl
  | succ f ih =>
    intro rem hlen
    by_cases heq : blocked edges rem = rem
    · simp [elim, heq]
    · have hsub := blocked_sublist edges rem
      have hlt : (blocked edges rem).length < rem.length := by
        rcases Nat.lt_or_ge (blocked edges rem).length rem.length with h | h
        · exact h
        · exact absurd (hsub.eq_of_length (Nat.le_antisymm hsub.length_le h))
            heq
      rw [elim, if_neg heq]
      exact ih (blocked edges rem) (Nat.le_of_lt_succ (Nat.lt_of_lt_of_le hlt hlen))

theorem extractCycle_progress (edges : EdgeList ν) (rem : List ν)
    (hfix : blocked edges rem = rem) :
    ∀ (f : Nat) (seen : List ν) (cur : ν), cur ∈ rem → seen ⊆ rem →
      seen.Nodup →
      extractCycle edges rem f seen cur = none →
      seen.length + f ≤ rem.length := by
  intro f
  induction f with
  | zero =>
    intro seen cur hcur hsub hnd _
    simpa using (hnd.subperm hsub).length_le
  | succ f ih =>
    intro seen cur hcur hsub hnd hnone
    by_cases hns : cur ∈ seen
    · rw [extractCycle, if_pos hns] at hnone
      exact absurd hnone (by simp)
    · rw [extractCycle, if_neg hns] at hnone
      rcases blocked_fix_mem hfix hcur with ⟨m, hm⟩
      rw [hm] at hnone
      rcases pickNext_sound hm with ⟨_, hmrem⟩
      have := ih (cur :: seen) m hmrem
        (fun x hx => by
          rcases List.mem_cons.mp hx with h | h
          · subst h; exact hcur
          · exact hsub h)
        (List.nodup_cons.mpr ⟨hns, hnd⟩) hnone
      simp only [List.length_cons] at this
      omega

theorem dropWhile_ne_cons {l : List ν} {a : ν} (h : a ∈ l) :
    ∃ dr, l.dropWhile (fun x => decide (x ≠ a)) = a :: dr := by
  induction l with
  | nil => simp at h
  | cons x xs ih =>
    by_cases hx : x = a
    · subst hx
      exact ⟨xs, by simp [List.dropWhile_cons]⟩
    · rcases List.mem_cons.mp h with h' | h'
      · exact absurd h'.symm hx
      · rcases ih h' with ⟨dr, hdr⟩
        refine ⟨dr, ?_⟩
        rw [List.dropWhile_cons, if_pos (by simp [hx])]
        exact hdr

theorem extractCycle_sound (edges : EdgeList ν) (rem : List ν) :
    ∀ (f : Nat) (seen : List ν) (cur : ν) (c : List ν),
      List.Chain' (fun a b => pickNext edges rem a = some b)
        (seen.reverse ++ [cur]) →
      extractCycle edges rem f seen cur = some c →
      IsCycle edges c := by
  intro f
  induction f with
  | zero =>
    intro seen cur c _ h
    exact absurd h (by simp [extractCycle])
  | succ f ih =>
    intro seen cur c hchain hsome
    by_cases hns : cur ∈ seen
    · rw [extractCycle, if_pos hns] at hsome
      have hc := Option.some.inj hsome
      subst hc
      set tw := List.takeWhile (fun x => decide (x ≠ cur)) seen with htw
      rcases dropWhile_ne_cons hns with ⟨dr, hdr⟩
      have hseen : tw ++ (cur :: dr) = seen := by
        rw [htw, ← hdr]
        exact List.takeWhile_append_dropWhile _ _
      have hsplit : seen.reverse ++ [cur] =
          dr.reverse ++ ((tw ++ [cur]).reverse ++ [cur]) := by
        rw [← hseen]
        simp
      rw [hsplit] at hchain
      have hcyc := (List.chain'_append.mp hchain).2.1
      have hchain' : List.Chain' (edgeRel edges) ((tw ++ [cur]).reverse ++ [cur]) :=
        hcyc.imp (fun _ _ h => (pickNext_sound h).1)
      refine ⟨?_, ?_, hchain'⟩
      · simp
      · have h1 : ((tw ++ [cur]).reverse ++ [cur]).getLast? = some cur :=
          List.getLast?_concat _
        have h2 : ((tw ++ [cur]).reverse ++ [cur]).head? = some cur := by
          simp [List.reverse_append]
        rw [h1, h2]
    · rw [extractCycle, if_neg hns] at hsome
      match hm : pickNext edges rem cur with
      | none =>
        rw [hm] at hsome
        exact absurd hsome (by simp)
      | some m =>
        rw [hm] at hsome
        refine ih (cur :: seen) m c ?_ hsome
        rw [List.reverse_cons]
        refine List.chain'_append.mpr ⟨hchain, List.chain'_singleton m, ?_⟩
        intro x hx y hy
        simp only [List.getLast?_concat, Option.mem_def, Option.some.injEq] at hx
        simp only [List.head?_cons, Option.mem_def, Option.some.injEq] at hy
        subst hx
        subst hy
        exact hm

theorem isCycle_succ {edges : EdgeList ν} {c : List ν} (hc : IsCycle edges c) :
    ∀ n ∈ c, ∃ m ∈ c, edgeRel edges n m := by
  rcases hc with ⟨hlen, hhl, hchain⟩
  intro n hn
  rcases List.append_of_mem hn with ⟨l₁, l₂, rfl⟩
  cases l₂ with
  | cons b l₂' =>
    have h2 : List.Chain' (edgeRel edges) (n :: b :: l₂') :=
      (List.chain'_append.mp hchain).2.1
    exact ⟨b, by simp, (List.chain'_cons.mp h2).1⟩
  | nil =>
    have hhead : (l₁ ++ [n]).head? = some n := by
      rw [hhl]
      exact List.getLast?_concat _
    cases l₁ with
    | nil => simp at hlen
    | cons a l₁' =>
      have ha : a = n := by simpa using hhead
      subst ha
      cases l₁' with
      | nil =>
        have : edgeRel edges a a := (List.chain'_cons.mp hchain).1
        exact ⟨a, by simp, this⟩
      | cons b l₁'' =>
        have : edgeRel edges a b := (List.chain'_cons.mp hchain).1
        exact ⟨b, by simp, this⟩

theorem cycle_subset_nodes {edges : EdgeList ν} {c : List ν}
    (hc : IsCycle edges c) : ∀ n ∈ c, n ∈ depNodes edges := by
  intro n hn
  rcases isCycle_succ hc n hn with ⟨m, _, hrel⟩
  unfold depNodes
  rw [List.mem_dedup, List.mem_append]
  exact Or.inl (List.mem_map.mpr ⟨(n, some m), hrel, rfl⟩)

theorem blocked_keeps {edges : EdgeList ν} {c rem : List ν}
    (hsucc : ∀ n ∈ c, ∃ m ∈ c, edgeRel edges n m)
    (hsub : c ⊆ rem) : c ⊆ blocked edges rem := by
  intro n hn
  rcases hsucc n hn with ⟨m, hmc, hrel⟩
  rw [blocked, List.mem_filter]
  refine ⟨hsub hn, ?_⟩
  rw [List.any_eq_true]
  exact ⟨m, mem_requiresOf.mpr hrel, by simpa using hsub hmc⟩

theorem elim_keeps {edges : EdgeList ν} {c : List ν}
    (hsucc : ∀ n ∈ c, ∃ m ∈ c, edgeRel edges n m) :
    ∀ (f : Nat) (rem : List ν), c ⊆ rem → c ⊆ elim edges f rem := by
  intro f
  induction f with
  | zero => exact fun rem h => h
  | succ f ih =>
    intro rem h
    rw [elim]
    by_cases heq : blocked edges rem = rem
    · rw [if_pos heq]
      exact h
    · rw [if_neg heq]
      exact ih _ (blocked_keeps hsucc h)

/-- C5: For every edge set containing a cycle, constructing the dependency
graph raises CircularDependencyException at construction time — and
constructing a DependencyTaskGroup over it propagates the same exception —
and the reported cycle, walked in order, returns to its starting node
(consecutive entries are edges of the set and the walk ends where it
starts); for every acyclic edge set, construction succeeds. -/
theorem circular_dependency_detection (edges : EdgeList ν) :
    (HasCycle edges ↔ ∃ c, circularCheck edges = .error c) ∧
    (∀ c, circularCheck edges = .error c → IsCycle edges c) ∧
    (∀ c, mkDependencyTaskGroup edges = .error c ↔
      circularCheck edges = .error c) ∧
    (¬ HasCycle edges → circularCheck edges = .ok () ∧
      mkDependencyTaskGroup edges = .ok (depNodes edges)) := by
  have hsound : ∀ c, circularCheck edges = .error c → IsCycle edges c := by
    intro c hc
    simp only [circularCheck] at hc
    cases hR : elim edges (depNodes edges).length (depNodes edges) with
    | nil =>
      rw [hR] at hc
      exact absurd hc (by simp)
    | cons n rest =>
      rw [hR] at hc
      cases hE : extractCycle edges (n :: rest) ((n :: rest).length + 1) [] n with
      | none =>
        simp only [hE] at hc
        exact absurd hc (by simp)
      | some c' =>
        simp only [hE] at hc
        have hcyc := extractCycle_sound edges (n :: rest)
          ((n :: rest).length + 1) [] n c' (by simp) hE
        have : c' = c := by simpa using hc
        subst this
        exact hcyc
  have hcomplete : HasCycle edges → ∃ c', circularCheck edges = .error c' := by
    rintro ⟨c, hc⟩
    have hsucc := isCycle_succ hc
    have hsub : c ⊆ elim edges (depNodes edges).length (depNodes edges) :=
      elim_keeps hsucc _ _ (cycle_subset_nodes hc)
    have hfix := elim_fixpoint edges (depNodes edges).length (depNodes edges)
      le_rfl
    have hne : c ≠ [] := by
      rcases hc with ⟨hlen, _, _⟩
      intro h
      subst h
      simp at hlen
    obtain ⟨n0, hn0⟩ := List.exists_mem_of_ne_nil c hne
    have hmem : n0 ∈ elim edges (depNodes edges).length (depNodes edges) :=
      hsub hn0
    cases hR : elim edges (depNodes edges).length (depNodes edges) with
    | nil =>
      rw [hR] at hmem
      simp at hmem
    | cons n rest =>
      rw [hR] at hfix
      cases hE : extractCycle edges (n :: rest) ((n :: rest).length + 1) [] n with
      | some c' =>
        refine ⟨c', ?_⟩
        simp only [circularCheck, hR, hE]
      | none =>
        exfalso
        have := extractCycle_progress edges (n :: rest) hfix
          ((n :: rest).length + 1) [] n (by simp) (by simp) List.nodup_nil hE
        simp at this
  refine ⟨⟨hcomplete, ?_⟩, hsound, ?_, ?_⟩
  · rintro ⟨c, hc⟩
    exact ⟨c, hsound c hc⟩
  · intro c
    constructor
    · intro h
      simp only [mkDependencyTaskGroup] at h
      split at h
      · rename_i c' heq
        cases h
        exact heq
      · exact absurd h (by simp)
    · intro h
      simp [mkDependencyTaskGroup, h]
  · intro hnc
    cases hcc : circularCheck edges with
    | error c' => exact absurd ⟨c', hsound c' hcc⟩ hnc
    | ok u =>
      cases u
      refine ⟨?_, ?_⟩
      · rfl
      · simp [mkDependencyTaskGroup, hcc]

/-- Witness for C5: the three-node cycle of the tests is rejected at
construction time with a genuine reported cycle that returns to its
starting node. -/
theorem circular_dependency_detection_witness :
    circularCheck cyclicEdgesEx = .error ["second", "third", "first", "second"] ∧
    IsCycle cyclicEdgesEx ["second", "third", "first", "second"] := by
  refine ⟨by rfl, ?_⟩
  exact (circular_dependency_detection cyclicEdgesEx).2.1 _ (by rfl)

section GroupLemmas

variable {ε : Type}

theorem partitionPending_ready_mem {d f c : List ν} {pend : List (GNode ν ε)}
    {n : GNode ν ε} (h : n ∈ (partitionPending d f c pend).1) :
    n ∈ pend ∧ ∀ q ∈ n.preds, q ∈ d := by
  induction pend with
  | nil => simp [partitionPending] at h
  | cons m rest ih =>
    rw [partitionPending] at h
    by_cases h1 : m.preds.all (fun q => decide (q ∈ d))
    · rw [if_pos h1] at h
      rcases List.mem_cons.mp h with h' | h'
      · subst h'
        refine ⟨List.mem_cons_self _ _, ?_⟩
        intro q hq
        simpa using List.all_eq_true.mp h1 q hq
      · rcases ih h' with ⟨hmem, hpred⟩
        exact ⟨List.mem_cons_of_mem _ hmem, hpred⟩
    · rw [if_neg h1] at h
      by_cases h2 : m.preds.any (fun q => decide (q ∈ f) || decide (q ∈ c))
      · rw [if_pos h2] at h
        rcases ih h with ⟨hmem, hpred⟩
        exact ⟨List.mem_cons_of_mem _ hmem, hpred⟩
      · rw [if_neg h2] at h
        rcases ih h with ⟨hmem, hpred⟩
        exact ⟨List.mem_cons_of_mem _ hmem, hpred⟩

theorem partitionPending_cancel_mem {d f c : List ν} {pend : List (GNode ν ε)}
    {n : GNode ν ε} (h : n ∈ (partitionPending d f c pend).2.1) :
    n ∈ pend ∧ ∃ q ∈ n.preds, q ∈ f ∨ q ∈ c := by
  induction pend with
  | nil => simp [partitionPending] at h
  | cons m rest ih =>
    rw [partitionPending] at h
    by_cases h1 : m.preds.all (fun q => decide (q ∈ d))
    · rw [if_pos h1] at h
      rcases ih h with ⟨hmem, hex⟩
      exact ⟨List.mem_cons_of_mem _ hmem, hex⟩
    · rw [if_neg h1] at h
      by_cases h2 : m.preds.any (fun q => decide (q ∈ f) || decide (q ∈ c))
      · rw [if_pos h2] at h
        rcases List.mem_cons.mp h with h' | h'
        · subst h'
          refine ⟨List.mem_cons_self _ _, ?_⟩
          rcases List.any_eq_true.mp h2 with ⟨q, hq, hqc⟩
          simp only [Bool.or_eq_true, decide_eq_true_eq] at hqc
          exact ⟨q, hq, hqc⟩
        · rcases ih h' with ⟨hmem, hex⟩
          exact ⟨List.mem_cons_of_mem _ hmem, hex⟩
      · rw [if_neg h2] at h
        rcases ih h with ⟨hmem, hex⟩
        exact ⟨List.mem_cons_of_mem _ hmem, hex⟩

theorem partitionPending_still_sub {d f c : List ν} {pend : List (GNode ν ε)}
    {n : GNode ν ε} (h : n ∈ (partitionPending d f c pend).2.2) : n ∈ pend := by
  induction pend with
  | nil => simp [partitionPending] at h
  | cons m rest ih =>
    rw [partitionPending] at h
    by_cases h1 : m.preds.all (fun q => decide (q ∈ d))
    · rw [if_pos h1] at h
      exact List.mem_cons_of_mem _ (ih h)
    · rw [if_neg h1] at h
      by_cases h2 : m.preds.any (fun q => decide (q ∈ f) || decide (q ∈ c))
      · rw [if_pos h2] at h
        exact List.mem_cons_of_mem _ (ih h)
      · rw [if_neg h2] at h
        rcases List.mem_cons.mp h with h' | h'
        · subst h'
          exact List.mem_cons_self _ _
        · exact List.mem_cons_of_mem _ (ih h')

theorem partitionPending_count (d f c : List ν) (pend : List (GNode ν ε))
    (x : ν) :
    (((partitionPending d f c pend).1.map GNode.name).count x +
      ((partitionPending d f c pend).2.1.map GNode.name).count x) +
      ((partitionPending d f c pend).2.2.map GNode.name).count x =
      ((pend.map GNode.name).count x) := by
  induction pend with
  | nil => simp [partitionPending]
  | cons m rest ih =>
    rw [partitionPending]
    by_cases h1 : m.preds.all (fun q => decide (q ∈ d))
    · rw [if_pos h1]
      simp only [List.map_cons, List.count_cons]
      omega
    · rw [if_neg h1]
      by_cases h2 : m.preds.any (fun q => decide (q ∈ f) || decide (q ∈ c))
      · rw [if_pos h2]
        simp only [List.map_cons, List.count_cons]
        omega
      · rw [if_neg h2]
        simp only [List.map_cons, List.count_cons]
        omega

theorem stepRunners_events (rs : List (GNode ν ε × Nat)) :
    (stepRunners rs).2.2.2 = rs.map (fun p => p.1.name) := by
  induction rs with
  | nil => rfl
  | cons p rest ih =>
    obtain ⟨n, k⟩ := p
    rw [stepRunners]
    match hf : n.failAt with
    | some fe =>
      by_cases h1 : fe.1 = k + 1
      · simp [h1, ih]
      · by_cases h2 : n.steps ≤ k + 1 <;> simp [h1, h2, ih]
    | none =>
      by_cases h2 : n.steps ≤ k + 1 <;> simp [h2, ih]

theorem stepRunners_count (rs : List (GNode ν ε × Nat)) (x : ν) :
    (((stepRunners rs).1.map (fun p => p.1.name)).count x +
      ((stepRunners rs).2.1).count x) +
      (((stepRunners rs).2.2.1.map Prod.fst).count x) =
      ((rs.map (fun p => p.1.name)).count x) := by
  induction rs with
  | nil => simp [stepRunners]
  | cons p rest ih =>
    obtain ⟨n, k⟩ := p
    rw [stepRunners]
    match hf : n.failAt with
    | some fe =>
      by_cases h1 : fe.1 = k + 1
      · simp [h1, List.count_cons]
        omega
      · by_cases h2 : n.steps ≤ k + 1 <;>
          · simp [h1, h2, List.count_cons]
            omega
    | none =>
      by_cases h2 : n.steps ≤ k + 1 <;>
        · simp [h2, List.count_cons]
          omega

theorem stepRunners_cons_raise {n : GNode ν ε} {k : Nat} {fe : Nat × ε}
    (rest : List (GNode ν ε × Nat)) (hf : n.failAt = some fe)
    (h1 : fe.1 = k + 1) :
    stepRunners ((n, k) :: rest) =
      ((stepRunners rest).1, (stepRunners rest).2.1,
       (n.name, fe.2) :: (stepRunners rest).2.2.1,
       n.name :: (stepRunners rest).2.2.2) := by
  rw [stepRunners, hf]
  simp [h1]

theorem stepRunners_cons_done {n : GNode ν ε} {k : Nat}
    (rest : List (GNode ν ε × Nat))
    (hraise : ∀ fe, n.failAt = some fe → fe.1 ≠ k + 1)
    (h2 : n.steps ≤ k + 1) :
    stepRunners ((n, k) :: rest) =
      ((stepRunners rest).1, n.name :: (stepRunners rest).2.1,
       (stepRunners rest).2.2.1, n.name :: (stepRunners rest).2.2.2) := by
  rw [stepRunners]
  cases hf : n.failAt with
  | none => simp [h2]
  | some fe => simp [h2, hraise fe hf]

theorem stepRunners_cons_step {n : GNode ν ε} {k : Nat}
    (rest : List (GNode ν ε × Nat))
    (hraise : ∀ fe, n.failAt = some fe → fe.1 ≠ k + 1)
    (h2 : ¬ n.steps ≤ k + 1) :
    stepRunners ((n, k) :: rest) =
      ((n, k + 1) :: (stepRunners rest).1, (stepRunners rest).2.1,
       (stepRunners rest).2.2.1, n.name :: (stepRunners rest).2.2.2) := by
  rw [stepRunners]
  cases hf : n.failAt with
  | none => simp [h2]
  | some fe => simp [h2, hraise fe hf]

theorem stepRunners_still_mem {rs : List (GNode ν ε × Nat)}
    {p : GNode ν ε × Nat} (h : p ∈ (stepRunners rs).1) :
    ∃ k, (p.1, k) ∈ rs ∧ p.2 = k + 1 ∧ k + 1 < p.1.steps ∧
      ∀ fk e, p.1.failAt = some (fk, e) → fk ≠ k + 1 := by
  induction rs with
  | nil => simp [stepRunners] at h
  | cons q rest ih =>
    obtain ⟨n, k⟩ := q
    cases hf : n.failAt with
    | some fe =>
      by_cases h1 : fe.1 = k + 1
      · rw [stepRunners_cons_raise rest hf h1] at h
        rcases ih h with ⟨k', hk', hh⟩
        exact ⟨k', List.mem_cons_of_mem _ hk', hh⟩
      · have hraise : ∀ fe', n.failAt = some fe' → fe'.1 ≠ k + 1 := by
          intro fe' hfe'
          rw [hf] at hfe'
          cases hfe'
          exact h1
        by_cases h2 : n.steps ≤ k + 1
        · rw [stepRunners_cons_done rest hraise h2] at h
          rcases ih h with ⟨k', hk', hh⟩
          exact ⟨k', List.mem_cons_of_mem _ hk', hh⟩
        · rw [stepRunners_cons_step rest hraise h2] at h
          rcases List.mem_cons.mp h with h' | h'
          · subst h'
            refine ⟨k, List.mem_cons_self _ _, rfl, by simpa using Nat.lt_of_not_le h2, ?_⟩
            intro fk e hfe
            rw [hf] at hfe
            cases hfe
            exact h1
          · rcases ih h' with ⟨k', hk', hh⟩
            exact ⟨k', List.mem_cons_of_mem _ hk', hh⟩
    | none =>
      have hraise : ∀ fe', n.failAt = some fe' → fe'.1 ≠ k + 1 := by
        intro fe' hfe'
        rw [hf] at hfe'
        cases hfe'
      by_cases h2 : n.steps ≤ k + 1
      · rw [stepRunners_cons_done rest hraise h2] at h
        rcases ih h with ⟨k', hk', hh⟩
        exact ⟨k', List.mem_cons_of_mem _ hk', hh⟩
      · rw [stepRunners_cons_step rest hraise h2] at h
        rcases List.mem_cons.mp h with h' | h'
        · subst h'
          refine ⟨k, List.mem_cons_self _ _, rfl, by simpa using Nat.lt_of_not_le h2, ?_⟩
          intro fk e hfe
          rw [hf] at hfe
          cases hfe
        · rcases ih h' with ⟨k', hk', hh⟩
          exact ⟨k', List.mem_cons_of_mem _ hk', hh⟩

theorem stepRunners_done_mem {rs : List (GNode ν ε × Nat)} {x : ν}
    (h : x ∈ (stepRunners rs).2.1) :
    ∃ n k, (n, k) ∈ rs ∧ n.name = x ∧ n.steps ≤ k + 1 ∧
      ∀ fk e, n.failAt = some (fk, e) → fk ≠ k + 1 := by
  induction rs with
  | nil => simp [stepRunners] at h
  | cons q rest ih =>
    obtain ⟨n, k⟩ := q
    cases hf : n.failAt with
    | some fe =>
      by_cases h1 : fe.1 = k + 1
      · rw [stepRunners_cons_raise rest hf h1] at h
        rcases ih h with ⟨n', k', hk', hh⟩
        exact ⟨n', k', List.mem_cons_of_mem _ hk', hh⟩
      · have hraise : ∀ fe', n.failAt = some fe' → fe'.1 ≠ k + 1 := by
          intro fe' hfe'
          rw [hf] at hfe'
          cases hfe'
          exact h1
        by_cases h2 : n.steps ≤ k + 1
        · rw [stepRunners_cons_done rest hraise h2] at h
          rcases List.mem_cons.mp h with h' | h'
          · subst h'
            refine ⟨n, k, List.mem_cons_self _ _, rfl, h2, ?_⟩
            intro fk e hfe
            rw [hf] at hfe
            cases hfe
            exact h1
          · rcases ih h' with ⟨n', k', hk', hh⟩
            exact ⟨n', k', List.mem_cons_of_mem _ hk', hh⟩
        · rw [stepRunners_cons_step rest hraise h2] at h
          rcases ih h with ⟨n', k', hk', hh⟩
          exact ⟨n', k', List.mem_cons_of_mem _ hk', hh⟩
    | none =>
      have hraise : ∀ fe', n.failAt = some fe' → fe'.1 ≠ k + 1 := by
        intro fe' hfe'
        rw [hf] at hfe'
        cases hfe'
      by_cases h2 : n.steps ≤ k + 1
      · rw [stepRunners_cons_done rest hraise h2] at h
        rcases List.mem_cons.mp h with h' | h'
        · subst h'
          refine ⟨n, k, List.mem_cons_self _ _, rfl, h2, ?_⟩
          intro fk e hfe
          rw [hf] at hfe
          cases hfe
        · rcases ih h' with ⟨n', k', hk', hh⟩
          exact ⟨n', k', List.mem_cons_of_mem _ hk', hh⟩
      · rw [stepRunners_cons_step rest hraise h2] at h
        rcases ih h with ⟨n', k', hk', hh⟩
        exact ⟨n', k', List.mem_cons_of_mem _ hk', hh⟩

theorem stepRunners_fail_mem {rs : List (GNode ν ε × Nat)} {x : ν} {e : ε}
    (h : (x, e) ∈ (stepRunners rs).2.2.1) :
    ∃ n k, (n, k) ∈ rs ∧ n.name = x ∧ n.failAt = some (k + 1, e) := by
  induction rs with
  | nil => simp [stepRunners] at h
  | cons q rest ih =>
    obtain ⟨n, k⟩ := q
    cases hf : n.failAt with
    | some fe =>
      by_cases h1 : fe.1 = k + 1
      · rw [stepRunners_cons_raise rest hf h1] at h
        rcases List.mem_cons.mp h with h' | h'
        · refine ⟨n, k, List.mem_cons_self _ _, (Prod.ext_iff.mp h').1.symm, ?_⟩
          rw [hf]
          have hfe : fe = (k + 1, e) := by
            have he : e = fe.2 := (Prod.ext_iff.mp h').2
            cases fe
            simp only [Prod.mk.injEq]
            simp only [Prod.fst] at h1
            exact ⟨h1, he.symm⟩
          rw [hfe]
        · rcases ih h' with ⟨n', k', hk', hh⟩
          exact ⟨n', k', List.mem_cons_of_mem _ hk', hh⟩
      · have hraise : ∀ fe', n.failAt = some fe' → fe'.1 ≠ k + 1 := by
          intro fe' hfe'
          rw [hf] at hfe'
          cases hfe'
          exact h1
        by_cases h2 : n.steps ≤ k + 1
        · rw [stepRunners_cons_done rest hraise h2] at h
          rcases ih h with ⟨n', k', hk', hh⟩
          exact ⟨n', k', List.mem_cons_of_mem _ hk', hh⟩
        · rw [stepRunners_cons_step rest hraise h2] at h
          rcases ih h with ⟨n', k', hk', hh⟩
          exact ⟨n', k', List.mem_cons_of_mem _ hk', hh⟩
    | none =>
      have hraise : ∀ fe', n.failAt = some fe' → fe'.1 ≠ k + 1 := by
        intro fe' hfe'
        rw [hf] at hfe'
        cases hfe'
      by_cases h2 : n.steps ≤ k + 1
      · rw [stepRunners_cons_done rest hraise h2] at h
        rcases ih h with ⟨n', k', hk', hh⟩
        exact ⟨n', k', List.mem_cons_of_mem _ hk', hh⟩
      · rw [stepRunners_cons_step rest hraise h2] at h
        rcases ih h with ⟨n', k', hk', hh⟩
        exact ⟨n', k', List.mem_cons_of_mem _ hk', hh⟩

theorem map_name_pair (l : List (GNode ν ε)) :
    (l.map (fun n => (n, 0))).map (fun p : GNode ν ε × Nat => p.1.name) =
      l.map GNode.name := by
  rw [List.map_map]
  rfl

theorem filter_split_count (l : List (GNode ν ε)) (x : ν) :
    ((l.filter (fun n => decide (n.steps = 0))).map GNode.name).count x +
      ((l.filter (fun n => !decide (n.steps = 0))).map GNode.name).count x =
      (l.map GNode.name).count x := by
  induction l with
  | nil => rfl
  | cons n rest ih =>
    by_cases h : n.steps = 0 <;>
      simp [List.filter_cons, h, List.count_cons] <;>
        omega

theorem gsParts_count (cfg : GConfig) (s : GState ν ε) (x : ν) :
    (((gsParts cfg s).1.map GNode.name).count x +
      ((gsParts cfg s).2.1.map GNode.name).count x) +
      ((gsParts cfg s).2.2.map GNode.name).count x =
      (s.pending.map GNode.name).count x := by
  unfold gsParts
  by_cases h : (!cfg.aggregate && s.pendingError.isSome) = true
  · simp [h]
  · rw [if_neg h]
    exact partitionPending_count _ _ _ _ x

theorem gsParts_ready_mem {cfg : GConfig} {s : GState ν ε} {n : GNode ν ε}
    (hn : n ∈ (gsParts cfg s).1) :
    n ∈ s.pending ∧ ∀ q ∈ n.preds, q ∈ s.done := by
  unfold gsParts at hn
  by_cases hc : (!cfg.aggregate && s.pendingError.isSome) = true
  · rw [if_pos hc] at hn
    simp at hn
  · rw [if_neg hc] at hn
    exact partitionPending_ready_mem hn

theorem gsParts_cancel_mem {cfg : GConfig} {s : GState ν ε} {n : GNode ν ε}
    (hn : n ∈ (gsParts cfg s).2.1) :
    n ∈ s.pending ∧ ∃ q ∈ n.preds, q ∈ s.failed.map Prod.fst ∨ q ∈ s.cancelled := by
  unfold gsParts at hn
  by_cases hc : (!cfg.aggregate && s.pendingError.isSome) = true
  · rw [if_pos hc] at hn
    simp at hn
  · rw [if_neg hc] at hn
    exact partitionPending_cancel_mem hn

theorem gsParts_still_mem {cfg : GConfig} {s : GState ν ε} {n : GNode ν ε}
    (hn : n ∈ (gsParts cfg s).2.2) : n ∈ s.pending := by
  unfold gsParts at hn
  by_cases hc : (!cfg.aggregate && s.pendingError.isSome) = true
  · rw [if_pos hc] at hn
    simpa using hn
  · rw [if_neg hc] at hn
    exact partitionPending_still_sub hn

theorem gsInput_mem {cfg : GConfig} {s : GState ν ε} {p : GNode ν ε × Nat}
    (hp : p ∈ gsInput cfg s) :
    p ∈ s.running ∨ (p.1 ∈ s.pending ∧ p.2 = 0 ∧
      (∀ q ∈ p.1.preds, q ∈ s.done) ∧ p.1.steps ≠ 0) := by
  rcases List.mem_append.mp hp with h | h
  · exact Or.inl h
  · rcases List.mem_map.mp h with ⟨n, hn, heq⟩
    have hf := List.mem_filter.mp hn
    rcases gsParts_ready_mem hf.1 with ⟨hmem, hpred⟩
    subst heq
    refine Or.inr ⟨hmem, rfl, hpred, ?_⟩
    have := hf.2
    simpa using this

theorem groupStep_count (cfg : GConfig) (s : GState ν ε) (x : ν) :
    (namesOf (groupStep cfg s)).count x = (namesOf s).count x := by
  have h1 := gsParts_count cfg s x
  have h2 := stepRunners_count (gsInput cfg s) x
  have h3 := filter_split_count (gsParts cfg s).1 x
  simp only [namesOf, groupStep, gsInput, List.map_append, List.count_append,
    map_name_pair] at h1 h2 h3 ⊢
  omega

theorem groupStep_nodup {cfg : GConfig} {s : GState ν ε}
    (h : (namesOf s).Nodup) : (namesOf (groupStep cfg s)).Nodup := by
  rw [List.nodup_iff_count_le_one] at h ⊢
  intro x
  rw [groupStep_count]
  exact h x

theorem namesOf_counts {s : GState ν ε} (h : (namesOf s).Nodup) (x : ν) :
    ((s.pending.map GNode.name).count x +
      (s.running.map (fun r => r.1.name)).count x +
      s.done.count x + (s.failed.map Prod.fst).count x +
      s.cancelled.count x) ≤ 1 := by
  rw [List.nodup_iff_count_le_one] at h
  have hx := h x
  unfold namesOf at hx
  simp only [List.count_append] at hx
  omega

theorem noneAfter_of_not_mem {a b : ν} {e : List ν} (h : b ∈ e → a ∉ e) :
    noneAfter a b e := by
  induction e with
  | nil => trivial
  | cons x xs ih =>
    refine ⟨?_, ?_⟩
    · intro hx ha
      exact h (hx ▸ List.mem_cons_self _ _) (List.mem_cons_of_mem _ ha)
    · refine ih ?_
      intro hb ha
      exact h (List.mem_cons_of_mem _ hb) (List.mem_cons_of_mem _ ha)

theorem noneAfter_append {a b : ν} {t e : List ν} (ht : noneAfter a b t)
    (h1 : b ∈ t → a ∉ e) (h2 : b ∈ e → a ∉ e) : noneAfter a b (t ++ e) := by
  induction t with
  | nil => simpa using noneAfter_of_not_mem h2
  | cons x xs ih =>
    rcases ht with ⟨hx, hxs⟩
    rw [List.cons_append]
    refine ⟨?_, ?_⟩
    · intro hxb ha
      rcases List.mem_append.mp ha with ha | ha
      · exact hx hxb ha
      · exact h1 (hxb ▸ List.mem_cons_self _ _) ha
    · exact ih hxs (fun hb => h1 (List.mem_cons_of_mem _ hb))

theorem runGroup_succ_err (cfg : GConfig) (f : Nat) (s : GState ν ε)
    {pe : ε × Nat} (hpe : s.pendingError = some pe)
    (hc : (s.running.isEmpty || decide (pe.2 ≤ s.time)) = true) :
    runGroup cfg (f + 1) s = (s, .err pe.1) := by
  rw [runGroup, hpe]
  simp [hc]

theorem runGroup_succ_errwait (cfg : GConfig) (f : Nat) (s : GState ν ε)
    {pe : ε × Nat} (hpe : s.pendingError = some pe)
    (hc : ¬ (s.running.isEmpty || decide (pe.2 ≤ s.time)) = true) :
    runGroup cfg (f + 1) s = runGroup cfg f (groupStep cfg s) := by
  rw [runGroup, hpe]
  simp only [Bool.or_eq_true] at hc
  push_neg at hc
  simp [hc.1, hc.2]

theorem runGroup_succ_finish (cfg : GConfig) (f : Nat) (s : GState ν ε)
    (hpe : s.pendingError = none)
    (hc : (s.pending.isEmpty && s.running.isEmpty) = true) :
    runGroup cfg (f + 1) s =
      (s, if cfg.aggregate && !s.failed.isEmpty then
        .group (s.failed.map Prod.snd) else .ok) := by
  rw [runGroup, hpe]
  by_cases hg : (cfg.aggregate && !s.failed.isEmpty) = true <;> simp [hc, hg]

theorem runGroup_succ_cont (cfg : GConfig) (f : Nat) (s : GState ν ε)
    (hpe : s.pendingError = none)
    (hc : ¬ (s.pending.isEmpty && s.running.isEmpty) = true) :
    runGroup cfg (f + 1) s = runGroup cfg f (groupStep cfg s) := by
  rw [runGroup, hpe]
  simp [hc]

theorem precInv_groupStep {cfg : GConfig} {a b : ν} {s : GState ν ε}
    (h : PrecInv a b s) : PrecInv a b (groupStep cfg s) := by
  obtain ⟨h1, h2, h3, h4⟩ := h
  have hexcl : a ∈ s.done → a ∉ s.pending.map GNode.name ∧
      a ∉ s.running.map (fun r => r.1.name) := by
    intro had
    have hc := namesOf_counts h3 a
    have hd : 0 < s.done.count a := List.count_pos_iff.mpr had
    constructor <;>
      · intro hmem
        have := List.count_pos_iff.mpr hmem
        omega
  have hinput : ∀ y ∈ (gsInput cfg s).map (fun p => p.1.name),
      y = b → a ∈ s.done := by
    intro y hy hyb
    subst hyb
    rcases List.mem_map.mp hy with ⟨p, hp, hname⟩
    rcases gsInput_mem hp with hrun | ⟨hpend, _, hpred, _⟩
    · exact h2 (Or.inl (List.mem_map.mpr ⟨p, hrun, hname⟩))
    · exact hpred a (h1 p.1 hpend hname)
  have hainput : a ∈ s.done → a ∉ (gsInput cfg s).map (fun p => p.1.name) := by
    intro had hmem
    rcases List.mem_map.mp hmem with ⟨p, hp, hname⟩
    rcases gsInput_mem hp with hrun | ⟨hpend, _, _, _⟩
    · exact (hexcl had).2 (List.mem_map.mpr ⟨p, hrun, hname⟩)
    · exact (hexcl had).1 (List.mem_map.mpr ⟨p.1, hpend, hname⟩)
  have hdsub : a ∈ s.done → a ∈ (groupStep cfg s).done := by
    intro had
    simp only [groupStep]
    exact List.mem_append_left _ (List.mem_append_left _ had)
  refine ⟨?_, ?_, groupStep_nodup h3, ?_⟩
  · intro n hn hb
    exact h1 n (gsParts_still_mem hn) hb
  · intro hcase
    apply hdsub
    rcases hcase with hb | hb | hb | hb
    · simp only [groupStep] at hb
      rcases List.mem_map.mp hb with ⟨p, hp, hname⟩
      rcases stepRunners_still_mem hp with ⟨k, hk, _⟩
      exact hinput _ (List.mem_map.mpr ⟨(p.1, k), hk, hname⟩) rfl
    · simp only [groupStep] at hb
      rcases List.mem_append.mp hb with hb1 | hb1
      · rcases List.mem_append.mp hb1 with hb2 | hb2
        · exact h2 (Or.inr (Or.inl hb2))
        · rcases List.mem_map.mp hb2 with ⟨n, hn, hname⟩
          have hnf := List.mem_filter.mp hn
          rcases gsParts_ready_mem hnf.1 with ⟨hpend, hpred⟩
          exact hpred a (h1 n hpend hname)
      · rcases stepRunners_done_mem hb1 with ⟨n, k, hk, hname, _⟩
        exact hinput _ (List.mem_map.mpr ⟨(n, k), hk, hname⟩) rfl
    · simp only [groupStep, List.map_append] at hb
      rcases List.mem_append.mp hb with hb1 | hb1
      · exact h2 (Or.inr (Or.inr (Or.inl hb1)))
      · rcases List.mem_map.mp hb1 with ⟨q, hq, hname⟩
        obtain ⟨xq, eq⟩ := q
        subst hname
        rcases stepRunners_fail_mem hq with ⟨n, k, hk, hname2, _⟩
        exact hinput _ (List.mem_map.mpr ⟨(n, k), hk, hname2⟩) rfl
    · simp only [groupStep] at hb
      rcases List.mem_append.mp hb with hb1 | hb1
      · exact h2 (Or.inr (Or.inr (Or.inr hb1)))
      · rw [stepRunners_events] at hb1
        exact hinput _ hb1 rfl
  · show noneAfter a b (groupStep cfg s).trace
    have htr : (groupStep cfg s).trace =
        s.trace ++ (gsInput cfg s).map (fun p => p.1.name) := by
      simp only [groupStep]
      rw [stepRunners_events]
    rw [htr]
    apply noneAfter_append h4
    · intro hbt
      exact hainput (h2 (Or.inr (Or.inr (Or.inr hbt))))
    · intro hbe
      exact hainput (hinput _ hbe rfl)

theorem runGroup_precInv (cfg : GConfig) {a b : ν} :
    ∀ (f : Nat) (s : GState ν ε), PrecInv a b s →
      PrecInv a b (runGroup cfg f s).1 := by
  intro f
  induction f with
  | zero => exact fun s h => h
  | succ f ih =>
    intro s h
    cases hpe : s.pendingError with
    | some pe =>
      by_cases hc : (s.running.isEmpty || decide (pe.2 ≤ s.time)) = true
      · rw [runGroup_succ_err cfg f s hpe hc]
        exact h
      · rw [runGroup_succ_errwait cfg f s hpe hc]
        exact ih _ (precInv_groupStep h)
    | none =>
      by_cases hc : (s.pending.isEmpty && s.running.isEmpty) = true
      · rw [runGroup_succ_finish cfg f s hpe hc]
        exact h
      · rw [runGroup_succ_cont cfg f s hpe hc]
        exact ih _ (precInv_groupStep h)

theorem precInv_init {nodes : List (GNode ν ε)} {a b : ν}
    (hreq : ∀ n ∈ nodes, n.name = b → a ∈ n.preds)
    (hnd : (nodes.map GNode.name).Nodup) :
    PrecInv a b (initGState nodes) := by
  refine ⟨hreq, ?_, ?_, trivial⟩
  · intro hcase
    simp [initGState] at hcase
  · simpa [namesOf, initGState] using hnd

theorem doomed_elim {nodes : List (GNode ν ε)} {x : ν} (hd : Doomed nodes x) :
    ∃ n ∈ nodes, n.name = x ∧ ∃ p ∈ n.preds,
      failingName nodes p ∨ Doomed nodes p := by
  cases hd with
  | direct n p hn hp hf => exact ⟨n, hn, rfl, p, hp, Or.inl hf⟩
  | trans n p hn hp hd' => exact ⟨n, hn, rfl, p, hp, Or.inr hd'⟩

theorem groupInv_groupStep {cfg : GConfig} {nodes : List (GNode ν ε)}
    {s : GState ν ε} (hnodes : (nodes.map GNode.name).Nodup)
    (h : GroupInv nodes s) : GroupInv nodes (groupStep cfg s) := by
  obtain ⟨h1, h2, h3, h4, h5, h6, h7⟩ := h
  have huniq : ∀ n₁ ∈ nodes, ∀ n₂ ∈ nodes, n₁.name = n₂.name → n₁ = n₂ :=
    fun n₁ hn₁ n₂ hn₂ heq => List.inj_on_of_nodup_map hnodes hn₁ hn₂ heq
  have hinput_spec : ∀ p ∈ gsInput cfg s, p.1 ∈ nodes ∧ p.2 < p.1.steps ∧
      ∀ fk e, p.1.failAt = some (fk, e) → fk = 0 ∨ p.2 < fk := by
    intro p hp
    rcases gsInput_mem hp with hrun | ⟨hpend, hk0, _, hsteps⟩
    · exact h2 p hrun
    · refine ⟨h1 _ hpend, ?_, ?_⟩
      · rw [hk0]
        omega
      · intro fk e _
        rw [hk0]
        omega
  have hdoom_input : ∀ x, Doomed nodes x →
      x ∉ (gsInput cfg s).map (fun p => p.1.name) := by
    intro x hd hmem
    rcases List.mem_map.mp hmem with ⟨p, hp, hname⟩
    rcases gsInput_mem hp with hrun | ⟨hpend, _, hpred, _⟩
    · exact (h5 x hd).1 (List.mem_map.mpr ⟨p, hrun, hname⟩)
    · rcases doomed_elim hd with ⟨m, hm, hmx, q, hq, hbad⟩
      have hpm : p.1 = m := huniq _ (h1 _ hpend) _ hm (by rw [hname, hmx])
      have hqdone : q ∈ s.done := hpred q (by rw [hpm]; exact hq)
      rcases hbad with hb | hb
      · exact h6 q hb hqdone
      · exact (h5 q hb).2.1 hqdone
  have hdoom_ready : ∀ x, Doomed nodes x → ∀ n ∈ (gsParts cfg s).1,
      n.name ≠ x := by
    intro x hd n hn hname
    rcases doomed_elim hd with ⟨m, hm, hmx, q, hq, hbad⟩
    have hnm : n = m :=
      huniq _ (h1 _ (gsParts_ready_mem hn).1) _ hm (by rw [hname, hmx])
    have hqdone : q ∈ s.done :=
      (gsParts_ready_mem hn).2 q (by rw [hnm]; exact hq)
    rcases hbad with hb | hb
    · exact h6 q hb hqdone
    · exact (h5 q hb).2.1 hqdone
  refine ⟨?_, ?_, ?_, ?_, ?_, ?_, groupStep_nodup h7⟩
  · intro n hn
    exact h1 n (gsParts_still_mem hn)
  · intro p hp
    simp only [groupStep] at hp
    rcases stepRunners_still_mem hp with ⟨k, hk, hp2, hlt, hne⟩
    rcases hinput_spec (p.1, k) hk with ⟨hmem, hk2, hfk⟩
    refine ⟨hmem, ?_, ?_⟩
    · rw [hp2]
      exact hlt
    · intro fk e hfe
      rcases hfk fk e hfe with h0 | hlt'
      · exact Or.inl h0
      · right
        rw [hp2]
        have := hne fk e hfe
        omega
  · intro x e hxe
    simp only [groupStep] at hxe
    rcases List.mem_append.mp hxe with hold | hnew
    · exact h3 x e hold
    · rcases stepRunners_fail_mem hnew with ⟨n, k, hk, hname, hfa⟩
      rcases hinput_spec (n, k) hk with ⟨hmem, hk2, _⟩
      exact ⟨n, hmem, hname, k + 1, hfa, by omega, by
        simp only at hk2
        omega⟩
  · intro x hx
    simp only [groupStep] at hx
    rcases List.mem_append.mp hx with hold | hnew
    · exact h4 x hold
    · rcases List.mem_map.mp hnew with ⟨n, hn, hname⟩
      rcases gsParts_cancel_mem hn with ⟨hpend, q, hq, hbad⟩
      subst hname
      rcases hbad with hb | hb
      · rcases List.mem_map.mp hb with ⟨qe, hqe, hqname⟩
        obtain ⟨qx, qex⟩ := qe
        simp only at hqname
        subst hqname
        rcases h3 qx qex hqe with ⟨m, hm, hmn, fk, hfk, hfk1, hfk2⟩
        exact Doomed.direct n qx (h1 _ hpend) hq
          ⟨m, hm, hmn, fk, qex, hfk, hfk1, hfk2⟩
      · exact Doomed.trans n q (h1 _ hpend) hq (h4 q hb)
  · intro x hd
    have hninput := hdoom_input x hd
    have hold := h5 x hd
    refine ⟨?_, ?_, ?_, ?_⟩
    · intro hmem
      simp only [groupStep] at hmem
      rcases List.mem_map.mp hmem with ⟨p, hp, hname⟩
      rcases stepRunners_still_mem hp with ⟨k, hk, _⟩
      exact hninput (List.mem_map.mpr ⟨(p.1, k), hk, hname⟩)
    · intro hmem
      simp only [groupStep] at hmem
      rcases List.mem_append.mp hmem with hm1 | hm1
      · rcases List.mem_append.mp hm1 with hm2 | hm2
        · exact hold.2.1 hm2
        · rcases List.mem_map.mp hm2 with ⟨n, hn, hname⟩
          exact hdoom_ready x hd n (List.mem_filter.mp hn).1 hname
      · rcases stepRunners_done_mem hm1 with ⟨n, k, hk, hname, _⟩
        exact hninput (List.mem_map.mpr ⟨(n, k), hk, hname⟩)
    · intro hmem
      simp only [groupStep, List.map_append] at hmem
      rcases List.mem_append.mp hmem with hm1 | hm1
      · exact hold.2.2.1 hm1
      · rcases List.mem_map.mp hm1 with ⟨q, hq, hname⟩
        obtain ⟨qx, qe⟩ := q
        simp only at hname
        subst hname
        rcases stepRunners_fail_mem hq with ⟨n, k, hk, hname2, _⟩
        exact hninput (List.mem_map.mpr ⟨(n, k), hk, hname2⟩)
    · intro hmem
      simp only [groupStep] at hmem
      rcases List.mem_append.mp hmem with hm1 | hm1
      · exact hold.2.2.2 hm1
      · rw [stepRunners_events] at hm1
        exact hninput hm1
  · intro x hf hmem
    simp only [groupStep] at hmem
    rcases List.mem_append.mp hmem with hm1 | hm1
    · rcases List.mem_append.mp hm1 with hm2 | hm2
      · exact h6 x hf hm2
      · rcases List.mem_map.mp hm2 with ⟨n, hn, hname⟩
        have hnf := List.mem_filter.mp hn
        rcases hf with ⟨m, hm, hmn, fk, e, hfa, hfk1, hfk2⟩
        have hnm : n = m :=
          huniq _ (h1 _ (gsParts_ready_mem hnf.1).1) _ hm (by rw [hname, hmn])
        have hz : n.steps = 0 := by simpa using hnf.2
        rw [hnm] at hz
        omega
    · rcases stepRunners_done_mem hm1 with ⟨n, k, hk, hname, hsteps, hraise⟩
      rcases hf with ⟨m, hm, hmn, fk, e, hfa, hfk1, hfk2⟩
      rcases hinput_spec (n, k) hk with ⟨hmem2, hk2, hfkinv⟩
      have hnm : n = m := huniq _ hmem2 _ hm (by rw [hname, hmn])
      subst hnm
      have hd1 := hfkinv fk e hfa
      have hd2 := hraise fk e hfa
      simp only at hk2 hsteps
      omega

theorem groupInv_init {nodes : List (GNode ν ε)}
    (hnodes : (nodes.map GNode.name).Nodup) :
    GroupInv nodes (initGState nodes) := by
  refine ⟨fun n hn => hn, ?_, ?_, ?_, ?_, ?_, ?_⟩
  · intro p hp
    simp [initGState] at hp
  · intro x e hx
    simp [initGState] at hx
  · intro x hx
    simp [initGState] at hx
  · intro x _
    simp [initGState]
  · intro x _
    simp [initGState]
  · simpa [namesOf, initGState] using hnodes

theorem runGroup_groupInv (cfg : GConfig) {nodes : List (GNode ν ε)}
    (hnodes : (nodes.map GNode.name).Nodup) :
    ∀ (f : Nat) (s : GState ν ε), GroupInv nodes s →
      GroupInv nodes (runGroup cfg f s).1 := by
  intro f
  induction f with
  | zero => exact fun s h => h
  | succ f ih =>
    intro s h
    cases hpe : s.pendingError with
    | some pe =>
      by_cases hc : (s.running.isEmpty || decide (pe.2 ≤ s.time)) = true
      · rw [runGroup_succ_err cfg f s hpe hc]
        exact h
      · rw [runGroup_succ_errwait cfg f s hpe hc]
        exact ih _ (groupInv_groupStep hnodes h)
    | none =>
      by_cases hc : (s.pending.isEmpty && s.running.isEmpty) = true
      · rw [runGroup_succ_finish cfg f s hpe hc]
        exact h
      · rw [runGroup_succ_cont cfg f s hpe hc]
        exact ih _ (groupInv_groupStep hnodes h)

theorem runGroup_count (cfg : GConfig) :
    ∀ (f : Nat) (s : GState ν ε) (x : ν),
      (namesOf (runGroup cfg f s).1).count x = (namesOf s).count x := by
  intro f
  induction f with
  | zero => exact fun s x => rfl
  | succ f ih =>
    intro s x
    cases hpe : s.pendingError with
    | some pe =>
      by_cases hc : (s.running.isEmpty || decide (pe.2 ≤ s.time)) = true
      · rw [runGroup_succ_err cfg f s hpe hc]
      · rw [runGroup_succ_errwait cfg f s hpe hc, ih, groupStep_count]
    | none =>
      by_cases hc : (s.pending.isEmpty && s.running.isEmpty) = true
      · rw [runGroup_succ_finish cfg f s hpe hc]
      · rw [runGroup_succ_cont cfg f s hpe hc, ih, groupStep_count]

theorem runGroup_group_char (cfg : GConfig) :
    ∀ (f : Nat) (s : GState ν ε) (es : List ε),
      (runGroup cfg f s).2 = .group es →
      es = (runGroup cfg f s).1.failed.map Prod.snd := by
  intro f
  induction f with
  | zero =>
    intro s es h
    simp [runGroup] at h
  | succ f ih =>
    intro s es h
    cases hpe : s.pendingError with
    | some pe =>
      by_cases hc : (s.running.isEmpty || decide (pe.2 ≤ s.time)) = true
      · rw [runGroup_succ_err cfg f s hpe hc] at h
        simp at h
      · rw [runGroup_succ_errwait cfg f s hpe hc] at h ⊢
        exact ih _ es h
    | none =>
      by_cases hc : (s.pending.isEmpty && s.running.isEmpty) = true
      · rw [runGroup_succ_finish cfg f s hpe hc] at h ⊢
        by_cases hg : (cfg.aggregate && !s.failed.isEmpty) = true
        · rw [if_pos hg] at h
          simp only at h
          cases h
          rfl
        · rw [if_neg hg] at h
          simp at h
      · rw [runGroup_succ_cont cfg f s hpe hc] at h ⊢
        exact ih _ es h

theorem runGroup_err_char (cfg : GConfig) :
    ∀ (f : Nat) (s : GState ν ε) (e : ε),
      (runGroup cfg f s).2 = .err e →
      ∃ d, (runGroup cfg f s).1.pendingError = some (e, d) ∧
        ((runGroup cfg f s).1.running = [] ∨ d ≤ (runGroup cfg f s).1.time) := by
  intro f
  induction f with
  | zero =>
    intro s e h
    simp [runGroup] at h
  | succ f ih =>
    intro s e h
    cases hpe : s.pendingError with
    | some pe =>
      by_cases hc : (s.running.isEmpty || decide (pe.2 ≤ s.time)) = true
      · rw [runGroup_succ_err cfg f s hpe hc] at h ⊢
        simp only at h
        cases h
        refine ⟨pe.2, by rw [hpe], ?_⟩
        rcases Bool.or_eq_true _ _ |>.mp hc with hh | hh
        · exact Or.inl (List.isEmpty_iff.mp hh)
        · exact Or.inr (by simpa using hh)
      · rw [runGroup_succ_errwait cfg f s hpe hc] at h ⊢
        exact ih _ e h
    | none =>
      by_cases hc : (s.pending.isEmpty && s.running.isEmpty) = true
      · rw [runGroup_succ_finish cfg f s hpe hc] at h
        by_cases hg : (cfg.aggregate && !s.failed.isEmpty) = true
        · rw [if_pos hg] at h
          simp at h
        · rw [if_neg hg] at h
          simp at h
      · rw [runGroup_succ_cont cfg f s hpe hc] at h ⊢
        exact ih _ e h

theorem errInv_groupStep {cfg : GConfig} {s : GState ν ε}
    (h : ∀ pe, s.pendingError = some pe → ∃ x, (x, pe.1) ∈ s.failed) :
    ∀ pe, (groupStep cfg s).pendingError = some pe →
      ∃ x, (x, pe.1) ∈ (groupStep cfg s).failed := by
  intro pe hpe
  simp only [groupStep] at hpe ⊢
  cases hs : s.pendingError with
  | some pe' =>
    rw [hs] at hpe
    simp only at hpe
    cases hpe
    rcases h pe hs with ⟨x, hx⟩
    exact ⟨x, List.mem_append_left _ hx⟩
  | none =>
    rw [hs] at hpe
    by_cases hg : cfg.aggregate = true
    · simp [hg] at hpe
    · simp only [hg, if_false, ite_false, Bool.false_eq_true] at hpe
      cases hnf : (stepRunners (gsInput cfg s)).2.2.1 with
      | nil =>
        rw [hnf] at hpe
        simp at hpe
      | cons q rest =>
        rw [hnf] at hpe
        simp only at hpe
        cases hpe
        exact ⟨q.1, List.mem_append_right _ (List.mem_cons_self _ _)⟩

theorem runGroup_errInv (cfg : GConfig) :
    ∀ (f : Nat) (s : GState ν ε),
      (∀ pe, s.pendingError = some pe → ∃ x, (x, pe.1) ∈ s.failed) →
      ∀ pe, (runGroup cfg f s).1.pendingError = some pe →
        ∃ x, (x, pe.1) ∈ (runGroup cfg f s).1.failed := by
  intro f
  induction f with
  | zero => exact fun s h => h
  | succ f ih =>
    intro s h
    cases hpe : s.pendingError with
    | some pe =>
      by_cases hc : (s.running.isEmpty || decide (pe.2 ≤ s.time)) = true
      · rw [runGroup_succ_err cfg f s hpe hc]
        exact h
      · rw [runGroup_succ_errwait cfg f s hpe hc]
        exact ih _ (errInv_groupStep h)
    | none =>
      by_cases hc : (s.pending.isEmpty && s.running.isEmpty) = true
      · rw [runGroup_succ_finish cfg f s hpe hc]
        exact h
      · rw [runGroup_succ_cont cfg f s hpe hc]
        exact ih _ (errInv_groupStep h)

theorem runGroup_final_bucket {cfg : GConfig} {nodes : List (GNode ν ε)}
    {f : Nat} (hnodes : (nodes.map GNode.name).Nodup)
    (hpend : (runGroup cfg f (initGState nodes)).1.pending = [])
    (hrun : (runGroup cfg f (initGState nodes)).1.running = [])
    {n : GNode ν ε} (hn : n ∈ nodes) (hnf : ¬ nodeFails n)
    (hnd : ¬ Doomed nodes n.name) :
    n.name ∈ (runGroup cfg f (initGState nodes)).1.done := by
  have hinv := runGroup_groupInv cfg hnodes f _ (groupInv_init hnodes)
  have hcount := runGroup_count cfg f (initGState nodes) n.name
  have hinit : 0 < (namesOf (initGState nodes)).count n.name := by
    apply List.count_pos_iff.mpr
    unfold namesOf initGState
    simp only [List.map_nil, List.append_nil]
    exact List.mem_map.mpr ⟨n, hn, rfl⟩
  have hmem : n.name ∈ namesOf (runGroup cfg f (initGState nodes)).1 := by
    apply List.count_pos_iff.mp
    omega
  unfold namesOf at hmem
  rw [hpend, hrun] at hmem
  simp only [List.map_nil, List.nil_append, List.mem_append] at hmem
  rcases hmem with (hmem | hmem) | hmem
  · exact hmem
  · exfalso
    rcases List.mem_map.mp hmem with ⟨q, hq, hqname⟩
    obtain ⟨qx, qe⟩ := q
    simp only at hqname
    rcases hinv.2.2.1 qx qe hq with ⟨m, hm, hmn, fk, hfa, hfk1, hfk2⟩
    have hnm : n = m :=
      List.inj_on_of_nodup_map hnodes hn hm ((hmn.trans hqname).symm)
    exact hnf (hnm ▸ ⟨fk, qe, hfa, hfk1, hfk2⟩)
  · exact absurd (hinv.2.2.2.1 n.name hmem) hnd

end GroupLemmas

/-- C4: For every DependencyTaskGroup run with aggregate_exceptions=True
(over any node set with distinct names) in which some actions raise: the
actions of all transitive dependents of a failed node are never invoked
(their names never appear in the do_step trace); when the run raises an
ExceptionGroup, it contains exactly the exception instances of the nodes
that actually failed — each node at most once, every recorded failure a
genuine raise within the node's step budget, and no entry for a cancelled
dependent; and when the run drains (nothing pending or running), every
node that neither fails nor transitively depends on a failing node has run
to completion. The concrete test scenarios: three disjoint nodes with two
failures aggregate exactly both exceptions while the healthy node finishes
all three steps, and a chain under a first-step failure raises exactly
that one exception while the dependents B and C never run. -/
theorem aggregate_exceptions_semantics {ε : Type} (nodes : List (GNode ν ε))
    (wait : Option Nat) (f : Nat)
    (hnodes : (nodes.map GNode.name).Nodup) :
    (∀ x, Doomed nodes x →
      x ∉ (runGroup ⟨true, wait⟩ f (initGState nodes)).1.trace) ∧
    (∀ es, (runGroup ⟨true, wait⟩ f (initGState nodes)).2 = .group es →
      es = (runGroup ⟨true, wait⟩ f (initGState nodes)).1.failed.map Prod.snd ∧
      ((runGroup ⟨true, wait⟩ f (initGState nodes)).1.failed.map Prod.fst).Nodup ∧
      ∀ x e, (x, e) ∈ (runGroup ⟨true, wait⟩ f (initGState nodes)).1.failed →
        ∃ n ∈ nodes, n.name = x ∧ ∃ fk, n.failAt = some (fk, e) ∧
          1 ≤ fk ∧ fk ≤ n.steps) ∧
    ((runGroup ⟨true, wait⟩ f (initGState nodes)).1.pending = [] →
      (runGroup ⟨true, wait⟩ f (initGState nodes)).1.running = [] →
      ∀ n ∈ nodes, ¬ nodeFails n → ¬ Doomed nodes n.name →
        n.name ∈ (runGroup ⟨true, wait⟩ f (initGState nodes)).1.done) ∧
    (runGroup ⟨true, none⟩ 20 (initGState aggDisjointNodes)).2 = .group [1, 2] ∧
    (runGroup ⟨true, none⟩ 20 (initGState aggDisjointNodes)).1.trace =
      ["A", "B", "C", "A", "B", "A"] ∧
    (runGroup ⟨true, none⟩ 20 (initGState aggChainNodes)).2 = .group [7] ∧
    (runGroup ⟨true, none⟩ 20 (initGState aggChainNodes)).1.trace = ["A"] := by
  have hinv := runGroup_groupInv ⟨true, wait⟩ hnodes f _ (groupInv_init hnodes)
  refine ⟨?_, ?_, ?_, by rfl, by rfl, by rfl, by rfl⟩
  · intro x hd
    exact (hinv.2.2.2.2.1 x hd).2.2.2
  · intro es hes
    refine ⟨runGroup_group_char _ f _ es hes, ?_, ?_⟩
    · rw [List.nodup_iff_count_le_one]
      intro x
      have := namesOf_counts hinv.2.2.2.2.2.2 x
      omega
    · intro x e hxe
      exact hinv.2.2.1 x e hxe
  · intro hpend hrun n hn hnf hnd
    exact runGroup_final_bucket hnodes hpend hrun hn hnf hnd

/-- Witness for C4: in the chain scenario B transitively depends on the
failing node A, and B's action is never invoked; the run aggregates
exactly A's exception. -/
theorem aggregate_exceptions_semantics_witness :
    ((aggChainNodes.map GNode.name).Nodup ∧ Doomed aggChainNodes "B") ∧
    "B" ∉ (runGroup ⟨true, none⟩ 20 (initGState aggChainNodes)).1.trace ∧
    (runGroup ⟨true, none⟩ 20 (initGState aggChainNodes)).2 = .group [7] := by
  have hd : Doomed aggChainNodes "B" :=
    Doomed.direct ⟨"B", ["A"], 3, none⟩ "A" (by decide) (by decide)
      ⟨⟨"A", [], 3, some (1, 7)⟩, by decide, rfl, 1, 7, rfl, by decide, by decide⟩
  have h := aggregate_exceptions_semantics aggChainNodes none 20 (by decide)
  exact ⟨⟨by decide, hd⟩, h.1 "B" hd, h.2.2.2.2.2.1⟩

/-- C7: For every fast-fail DependencyTaskGroup run with error_wait_time=N
(over any node set with distinct names) whose outcome is a propagated
exception: the propagation happened only once every in-flight sibling had
finished or the grace deadline had passed, whichever came first, and the
propagated value is exactly the exception instance recorded for a node
that genuinely raised. In the concrete grace scenario (A fails at step 2
with a 5-unit window while B has three steps), B finishes all three steps,
the run ends with no sibling in flight at time 3 — before the deadline 6 —
and then raises exactly A's exception, with the dependent C never run; in
the expired scenario (five-step actions, 1-unit window) the exception
propagates at time 2, exactly the deadline, while B is still mid-flight
with only two steps done. -/
theorem error_wait_time_semantics {ε : Type} (nodes : List (GNode ν ε))
    (wait f : Nat) (hnodes : (nodes.map GNode.name).Nodup) :
    (∀ e : ε, (runGroup ⟨false, some wait⟩ f (initGState nodes)).2 = .err e →
      (∃ d, (runGroup ⟨false, some wait⟩ f (initGState nodes)).1.pendingError =
          some (e, d) ∧
        ((runGroup ⟨false, some wait⟩ f (initGState nodes)).1.running = [] ∨
          d ≤ (runGroup ⟨false, some wait⟩ f (initGState nodes)).1.time)) ∧
      ∃ x, (x, e) ∈ (runGroup ⟨false, some wait⟩ f (initGState nodes)).1.failed ∧
        ∃ n ∈ nodes, n.name = x ∧ ∃ fk, n.failAt = some (fk, e) ∧
          1 ≤ fk ∧ fk ≤ n.steps) ∧
    (runGroup ⟨false, some 5⟩ 30 (initGState graceNodes)).2 = .err 9 ∧
    (runGroup ⟨false, some 5⟩ 30 (initGState graceNodes)).1.trace.count "B" = 3 ∧
    (runGroup ⟨false, some 5⟩ 30 (initGState graceNodes)).1.running = [] ∧
    (runGroup ⟨false, some 5⟩ 30 (initGState graceNodes)).1.time = 3 ∧
    (runGroup ⟨false, some 5⟩ 30 (initGState graceNodes)).1.pendingError =
      some (9, 6) ∧
    "C" ∉ (runGroup ⟨false, some 5⟩ 30 (initGState graceNodes)).1.trace ∧
    (runGroup ⟨false, some 1⟩ 30 (initGState graceExpiredNodes)).2 = .err 9 ∧
    (runGroup ⟨false, some 1⟩ 30 (initGState graceExpiredNodes)).1.time = 2 ∧
    (runGroup ⟨false, some 1⟩ 30 (initGState graceExpiredNodes)).1.pendingError =
      some (9, 2) ∧
    (runGroup ⟨false, some 1⟩ 30
      (initGState graceExpiredNodes)).1.trace.count "B" = 2 := by
  refine ⟨?_, by rfl, by rfl, by rfl, by rfl, by rfl, by decide, by rfl,
    by rfl, by rfl, by rfl⟩
  intro e he
  have hinv := runGroup_groupInv ⟨false, some wait⟩ hnodes f _
    (groupInv_init hnodes)
  rcases runGroup_err_char ⟨false, some wait⟩ f (initGState nodes) e he with
    ⟨d, hd, hor⟩
  refine ⟨⟨d, hd, hor⟩, ?_⟩
  have herr := runGroup_errInv ⟨false, some wait⟩ f (initGState nodes)
    (by intro pe hpe; simp [initGState] at hpe) (e, d) hd
  rcases herr with ⟨x, hx⟩
  exact ⟨x, hx, hinv.2.2.1 x e hx⟩

/-- Witness for C7: the grace scenario propagates A's exception 9 only
after sibling B finished, and the recorded failure is genuine. -/
theorem error_wait_time_semantics_witness :
    ((graceNodes.map GNode.name).Nodup ∧
      (runGroup ⟨false, some 5⟩ 30 (initGState graceNodes)).2 = .err 9) ∧
    (∃ d, (runGroup ⟨false, some 5⟩ 30 (initGState graceNodes)).1.pendingError =
        some (9, d) ∧
      ((runGroup ⟨false, some 5⟩ 30 (initGState graceNodes)).1.running = [] ∨
        d ≤ (runGroup ⟨false, some 5⟩ 30 (initGState graceNodes)).1.time)) ∧
    ∃ x, (x, 9) ∈ (runGroup ⟨false, some 5⟩ 30 (initGState graceNodes)).1.failed ∧
      ∃ n ∈ graceNodes, n.name = x ∧ ∃ fk, n.failAt = some (fk, 9) ∧
        1 ≤ fk ∧ fk ≤ n.steps := by
  have h := (error_wait_time_semantics graceNodes 5 30 (by decide)).1 9 (by rfl)
  exact ⟨⟨by decide, by rfl⟩, h.1, h.2⟩


/-- C3: For any DependencyTaskGroup over the chain third-requires-second-
requires-first, with any step counts for the three actions, every do_step
of first precedes every do_step of second in the run's trace and every
do_step of second precedes every do_step of third; for the diamond
(last requires mid1 and mid2, both requiring first), first completes fully
before either mid starts and both mids complete fully before last starts,
while mid1 and mid2 interleave: with three steps each, the concrete traces
are exactly the interleavings the tests expect and the runs finish
cleanly. -/
theorem dependency_group_ordering (sa sb sc s1 s2 sd fuel : Nat) :
    (noneAfter "first" "second"
        (runGroup ⟨false, none⟩ fuel (initGState (chainNodes sa sb sc))).1.trace ∧
      noneAfter "second" "third"
        (runGroup ⟨false, none⟩ fuel (initGState (chainNodes sa sb sc))).1.trace) ∧
    (noneAfter "first" "mid1"
        (runGroup ⟨false, none⟩ fuel (initGState (diamondNodes sa s1 s2 sd))).1.trace ∧
      noneAfter "first" "mid2"
        (runGroup ⟨false, none⟩ fuel (initGState (diamondNodes sa s1 s2 sd))).1.trace ∧
      noneAfter "mid1" "last"
        (runGroup ⟨false, none⟩ fuel (initGState (diamondNodes sa s1 s2 sd))).1.trace ∧
      noneAfter "mid2" "last"
        (runGroup ⟨false, none⟩ fuel (initGState (diamondNodes sa s1 s2 sd))).1.trace) ∧
    (runGroup ⟨false, none⟩ 20 (initGState (chainNodes 3 3 3))).1.trace =
      ["first", "first", "first", "second", "second", "second",
       "third", "third", "third"] ∧
    (runGroup ⟨false, none⟩ 20 (initGState (chainNodes 3 3 3))).2 = .ok ∧
    (runGroup ⟨false, none⟩ 20 (initGState (diamondNodes 3 3 3 3))).1.trace =
      ["first", "first", "first", "mid1", "mid2", "mid1", "mid2",
       "mid1", "mid2", "last", "last", "last"] ∧
    (runGroup ⟨false, none⟩ 20 (initGState (diamondNodes 3 3 3 3))).2 = .ok := by
  have hchainnd : ((chainNodes sa sb sc).map GNode.name).Nodup := by
    simp [chainNodes]
  have hdiand : ((diamondNodes sa s1 s2 sd).map GNode.name).Nodup := by
    simp [diamondNodes]
  refine ⟨⟨?_, ?_⟩, ⟨?_, ?_, ?_, ?_⟩, by rfl, by rfl, by rfl, by rfl⟩
  · refine (runGroup_precInv _ fuel _ (precInv_init ?_ hchainnd)).2.2.2
    intro n hn hname
    simp only [chainNodes, List.mem_cons, List.not_mem_nil, or_false] at hn
    rcases hn with rfl | rfl | rfl <;> simp_all
  · refine (runGroup_precInv _ fuel _ (precInv_init ?_ hchainnd)).2.2.2
    intro n hn hname
    simp only [chainNodes, List.mem_cons, List.not_mem_nil, or_false] at hn
    rcases hn with rfl | rfl | rfl <;> simp_all
  · refine (runGroup_precInv _ fuel _ (precInv_init ?_ hdiand)).2.2.2
    intro n hn hname
    simp only [diamondNodes, List.mem_cons, List.not_mem_nil, or_false] at hn
    rcases hn with rfl | rfl | rfl | rfl <;> simp_all
  · refine (runGroup_precInv _ fuel _ (precInv_init ?_ hdiand)).2.2.2
    intro n hn hname
    simp only [diamondNodes, List.mem_cons, List.not_mem_nil, or_false] at hn
    rcases hn with rfl | rfl | rfl | rfl <;> simp_all
  · refine (runGroup_precInv _ fuel _ (precInv_init ?_ hdiand)).2.2.2
    intro n hn hname
    simp only [diamondNodes, List.mem_cons, List.not_mem_nil, or_false] at hn
    rcases hn with rfl | rfl | rfl | rfl <;> simp_all
  · refine (runGroup_precInv _ fuel _ (precInv_init ?_ hdiand)).2.2.2
    intro n hn hname
    simp only [diamondNodes, List.mem_cons, List.not_mem_nil, or_false] at hn
    rcases hn with rfl | rfl | rfl | rfl <;> simp_all

end Heat
